import Mathlib

/-!
Verification development for the tex2epub repository (Xiv2Pub).

The Python source is shallowly embedded over `List Char`.  Python's `re`
module is modelled by deterministic scanners: every regular expression used
by the code is simple enough (no ambiguous backtracking survives, as argued
in the comments next to each matcher) that leftmost scanning with maximal
literal runs reproduces `re.sub` / `re.search` / `re.finditer` exactly.
File systems are modelled as functions from path strings to optional file
contents.
-/

/-- Left brace character (spelled via its code point). -/
def lb : Char := Char.ofNat 123

/-- Right brace character (spelled via its code point). -/
def rb : Char := Char.ofNat 125

/-- Backslash character. -/
def bs : Char := '\\'

/-- ASCII letter, the character class `[a-zA-Z]` used by the Python regexes. -/
def isTexLetter (c : Char) : Bool :=
  ('a' ≤ c && c ≤ 'z') || ('A' ≤ c && c ≤ 'Z')

/-- ASCII digit, the character class `\d`. -/
def isTexDigit (c : Char) : Bool := '0' ≤ c && c ≤ '9'

/-- Whitespace for Python's `\s`, `str.split()` and `str.strip()`
(ASCII fragment, which is all the modelled documents use). -/
def isPySpace (c : Char) : Bool :=
  c = ' ' || c = '\t' || c = '\n' || c = '\r' || c = Char.ofNat 11 || c = Char.ofNat 12

/-- `startsWith pat s` : `pat` is a prefix of `s`. -/
def startsWith : List Char → List Char → Bool
  | [], _ => true
  | _ :: _, [] => false
  | p :: ps, c :: cs => p = c && startsWith ps cs

/-- `agreeUpTo pat s` : `pat` and `s` agree on their first `min |pat| |s|`
characters.  A pattern can only match a prefix of `s ++ t` (for some
continuation `t`) if it agrees with `s` up to the common length. -/
def agreeUpTo : List Char → List Char → Bool
  | [], _ => true
  | _ :: _, [] => true
  | p :: ps, c :: cs => p = c && agreeUpTo ps cs

/-- Index of the first occurrence of `pat` in `s` (the position at which
`re`'s scan loop first matches a literal pattern), if any. -/
def firstOcc (pat : List Char) : List Char → Option Nat
  | [] => if startsWith pat [] then some 0 else none
  | c :: cs => if startsWith pat (c :: cs) then some 0 else (firstOcc pat cs).map (· + 1)

/-- `str.find(pat, start)`-style search returning an absolute index. -/
def findFrom (pat s : List Char) (start : Nat) : Option Nat :=
  (firstOcc pat (s.drop start)).map (start + ·)

/-- Whether `pat` occurs anywhere in `s` (Python's `pat in s`). -/
def hasOcc (pat s : List Char) : Bool := (firstOcc pat s).isSome

/-- `cleanOf pat a` : no position of `a` even partially agrees with `pat`;
hence no occurrence of `pat` in `a ++ b` can start inside `a`, for any `b`. -/
def cleanOf (pat a : List Char) : Bool :=
  (List.range a.length).all fun i => !(agreeUpTo pat (a.drop i))

/-- `selfContained pat a` : every partial agreement with `pat` inside `a` is
already a full occurrence inside `a`; occurrences of `pat` in `a ++ b`
starting inside `a` are then exactly the occurrences in `a`. -/
def selfContained (pat a : List Char) : Bool :=
  (List.range a.length).all fun i => !(agreeUpTo pat (a.drop i)) || startsWith pat (a.drop i)

/-- Number of positions of `s` at which `pat` occurs. -/
def occCount (pat : List Char) : List Char → Nat
  | [] => if startsWith pat [] then 1 else 0
  | c :: cs => (if startsWith pat (c :: cs) then 1 else 0) + occCount pat cs

theorem startsWith_append (pat t : List Char) : startsWith pat (pat ++ t) = true := by
  induction pat with
  | nil => rfl
  | cons p ps ih => simp [startsWith, ih]

theorem startsWith_extend {pat s : List Char} (h : startsWith pat s = true) (t : List Char) :
    startsWith pat (s ++ t) = true := by
  induction pat generalizing s with
  | nil => rfl
  | cons p ps ih =>
    cases s with
    | nil => simp [startsWith] at h
    | cons c cs =>
      simp [startsWith] at h ⊢
      exact ⟨h.1, ih h.2⟩

theorem startsWith_iff_ex {pat s : List Char} :
    startsWith pat s = true ↔ ∃ t, s = pat ++ t := by
  constructor
  · intro h
    induction pat generalizing s with
    | nil => exact ⟨s, rfl⟩
    | cons p ps ih =>
      cases s with
      | nil => simp [startsWith] at h
      | cons c cs =>
        simp [startsWith] at h
        obtain ⟨t, ht⟩ := ih h.2
        exact ⟨t, by simp [h.1, ht]⟩
  · rintro ⟨t, rfl⟩
    exact startsWith_append pat t

theorem agreeUpTo_of_startsWith {pat s : List Char} (h : startsWith pat s = true) :
    agreeUpTo pat s = true := by
  induction pat generalizing s with
  | nil => rfl
  | cons p ps ih =>
    cases s with
    | nil => simp [startsWith] at h
    | cons c cs =>
      simp [startsWith] at h
      simp [agreeUpTo, h.1, ih h.2]

theorem agreeUpTo_of_startsWith_append {pat s t : List Char}
    (h : startsWith pat (s ++ t) = true) : agreeUpTo pat s = true := by
  induction pat generalizing s with
  | nil => rfl
  | cons p ps ih =>
    cases s with
    | nil => rfl
    | cons c cs =>
      simp [startsWith] at h
      simp [agreeUpTo, h.1, ih h.2]

theorem cleanOf_spec {pat a : List Char} (h : cleanOf pat a = true) :
    ∀ i, i < a.length → agreeUpTo pat (a.drop i) = false := by
  intro i hi
  have := List.all_eq_true.mp h i (List.mem_range.mpr hi)
  simpa using this

theorem cleanOf_tail {pat : List Char} {c : Char} {a : List Char}
    (h : cleanOf pat (c :: a) = true) : cleanOf pat a = true := by
  unfold cleanOf at h ⊢
  refine List.all_eq_true.mpr ?_
  intro i hi
  have hi' := List.mem_range.mp hi
  have := List.all_eq_true.mp h (i + 1) (List.mem_range.mpr (by simpa using Nat.succ_lt_succ hi'))
  simpa using this

theorem firstOcc_nil_of_ne {pat : List Char} (h : pat ≠ []) : firstOcc pat [] = none := by
  cases pat with
  | nil => exact absurd rfl h
  | cons p ps => simp [firstOcc, startsWith]

theorem firstOcc_of_startsWith {pat s : List Char} (h : startsWith pat s = true) :
    firstOcc pat s = some 0 := by
  cases s with
  | nil => simp [firstOcc, h]
  | cons c cs => simp [firstOcc, h]

theorem firstOcc_shift {pat a : List Char} (h : cleanOf pat a = true) (b : List Char) :
    firstOcc pat (a ++ b) = (firstOcc pat b).map (a.length + ·) := by
  induction a with
  | nil =>
    show firstOcc pat b = _
    cases firstOcc pat b <;> simp
  | cons c a' ih =>
    have h0 : agreeUpTo pat (c :: a') = false := by
      have := cleanOf_spec h 0 (by simp)
      simpa using this
    have hsw : startsWith pat (c :: (a' ++ b)) = false := by
      cases hy : startsWith pat (c :: (a' ++ b)) with
      | false => rfl
      | true =>
        have : startsWith pat ((c :: a') ++ b) = true := by simpa using hy
        have := agreeUpTo_of_startsWith_append this
        rw [this] at h0
        exact Bool.noConfusion h0
    have ih' := ih (cleanOf_tail h)
    show firstOcc pat (c :: (a' ++ b)) = _
    simp only [firstOcc, hsw, Bool.false_eq_true, if_false, ih']
    cases firstOcc pat b <;> simp <;> omega

theorem firstOcc_none_of_cleanOf {pat a : List Char} (hne : pat ≠ [])
    (h : cleanOf pat a = true) : firstOcc pat a = none := by
  have := firstOcc_shift h (b := [])
  rw [List.append_nil] at this
  rw [this, firstOcc_nil_of_ne hne]
  rfl

theorem firstOcc_at_junction {pat a : List Char} (h : cleanOf pat a = true) (b : List Char) :
    firstOcc pat (a ++ pat ++ b) = some a.length := by
  rw [List.append_assoc, firstOcc_shift h, firstOcc_of_startsWith (startsWith_append pat b)]
  rfl

theorem firstOcc_isSome_mono {pat a b : List Char} (h : (firstOcc pat b).isSome = true) :
    (firstOcc pat (a ++ b)).isSome = true := by
  induction a with
  | nil => exact h
  | cons c a' ih =>
    show (firstOcc pat (c :: (a' ++ b))).isSome = true
    simp only [firstOcc]
    by_cases hs : startsWith pat (c :: (a' ++ b)) = true
    · simp [hs]
    · simp only [if_neg hs]
      cases hx : firstOcc pat (a' ++ b) with
      | none => rw [hx] at ih; simp at ih
      | some k => simp

theorem hasOcc_of_startsWith_drop {pat s : List Char} {i : Nat}
    (h : startsWith pat (s.drop i) = true) : hasOcc pat s = true := by
  unfold hasOcc
  induction i generalizing s with
  | zero =>
    simp only [List.drop_zero] at h
    rw [firstOcc_of_startsWith h]
    rfl
  | succ n ih =>
    cases s with
    | nil =>
      simp only [List.drop_nil] at h
      rw [firstOcc_of_startsWith h]
      rfl
    | cons c cs =>
      have hx := ih (s := cs) (by simpa using h)
      simp only [firstOcc]
      by_cases hs : startsWith pat (c :: cs) = true
      · simp [hs]
      · simp only [if_neg hs]
        cases hy : firstOcc pat cs with
        | none => rw [hy] at hx; simp at hx
        | some k => simp

theorem selfContained_spec {pat a : List Char} (h : selfContained pat a = true) :
    ∀ i, i < a.length → agreeUpTo pat (a.drop i) = true → startsWith pat (a.drop i) = true := by
  intro i hi hag
  have := List.all_eq_true.mp h i (List.mem_range.mpr hi)
  simp at this
  rcases this with h1 | h2
  · rw [hag] at h1; exact Bool.noConfusion h1
  · exact h2

theorem selfContained_tail {pat : List Char} {c : Char} {a : List Char}
    (h : selfContained pat (c :: a) = true) : selfContained pat a = true := by
  unfold selfContained at h ⊢
  refine List.all_eq_true.mpr ?_
  intro i hi
  have hi' := List.mem_range.mp hi
  have := List.all_eq_true.mp h (i + 1)
    (List.mem_range.mpr (by simpa using Nat.succ_lt_succ hi'))
  simpa using this

theorem selfContained_of_cleanOf {pat a : List Char} (h : cleanOf pat a = true) :
    selfContained pat a = true := by
  unfold selfContained
  refine List.all_eq_true.mpr ?_
  intro i hi
  have := cleanOf_spec h i (List.mem_range.mp hi)
  simp [this]

/-- Occurrence counting distributes over append when every partial agreement
inside the left part is a full occurrence inside it (no pattern occurrence
straddles the boundary). -/
theorem occCount_append {pat : List Char} (hne : pat ≠ []) {a : List Char}
    (h : selfContained pat a = true) (b : List Char) :
    occCount pat (a ++ b) = occCount pat a + occCount pat b := by
  induction a with
  | nil =>
    have : occCount pat ([] : List Char) = 0 := by
      cases pat with
      | nil => exact absurd rfl hne
      | cons p ps => simp [occCount, startsWith]
    simp [this]
  | cons c a' ih =>
    have hsw : startsWith pat (c :: (a' ++ b)) = startsWith pat (c :: a') := by
      cases hy : startsWith pat (c :: a') with
      | true =>
        have := startsWith_extend hy b
        simpa using this
      | false =>
        cases hz : startsWith pat (c :: (a' ++ b)) with
        | false => rfl
        | true =>
          have hag : agreeUpTo pat (c :: a') = true := by
            have : startsWith pat ((c :: a') ++ b) = true := by simpa using hz
            exact agreeUpTo_of_startsWith_append this
          have := selfContained_spec h 0 (by simp) (by simpa using hag)
          simp at this
          rw [this] at hy
          exact Bool.noConfusion hy
    have ih' := ih (selfContained_tail h)
    show occCount pat (c :: (a' ++ b)) = _
    simp only [occCount, hsw, ih']
    omega

theorem occCount_eq_zero_of_cleanOf {pat a : List Char} (hne : pat ≠ [])
    (h : cleanOf pat a = true) : occCount pat a = 0 := by
  induction a with
  | nil =>
    cases pat with
    | nil => exact absurd rfl hne
    | cons p ps => simp [occCount, startsWith]
  | cons c a' ih =>
    have h0 : agreeUpTo pat (c :: a') = false := by
      have := cleanOf_spec h 0 (by simp)
      simpa using this
    have hsw : startsWith pat (c :: a') = false := by
      cases hy : startsWith pat (c :: a') with
      | false => rfl
      | true =>
        rw [agreeUpTo_of_startsWith hy] at h0
        exact Bool.noConfusion h0
    simp [occCount, hsw, ih (cleanOf_tail h)]

/-- Fuelled version of the scan loop of Python's `re.sub` (and
`str.replace`): at each position try the matcher `f` on the current suffix;
on a match of `n ≥ 1` characters emit the computed replacement and resume
after the match, otherwise keep one character and move on.  All patterns
modelled in this file match at least one character, so `n = 0` never arises;
it is treated as a non-match.  The fuel only makes the recursion structural
(each step consumes at least one character, so `s.length` fuel suffices). -/
def subF (f : List Char → Option (Nat × List Char)) : Nat → List Char → List Char
  | _, [] => []
  | 0, s => s
  | fuel + 1, c :: cs =>
    match f (c :: cs) with
    | some (n, repl) =>
      if 1 ≤ n then repl ++ subF f fuel ((c :: cs).drop n) else c :: subF f fuel cs
    | none => c :: subF f fuel cs

/-- The scan loop of Python's `re.sub` (and `str.replace`). -/
def subE (f : List Char → Option (Nat × List Char)) (s : List Char) : List Char :=
  subF f s.length s

theorem subF_fuel {f : List Char → Option (Nat × List Char)} :
    ∀ (fuel fuel' : Nat) (s : List Char), s.length ≤ fuel → s.length ≤ fuel' →
      subF f fuel s = subF f fuel' s := by
  intro fuel
  induction fuel with
  | zero =>
    intro fuel' s hs _
    have : s = [] := List.length_eq_zero.mp (Nat.le_zero.mp hs)
    subst this
    cases fuel' <;> rfl
  | succ fuel ih =>
    intro fuel' s hs hs'
    cases s with
    | nil => cases fuel' <;> rfl
    | cons c cs =>
      cases fuel' with
      | zero => simp at hs'
      | succ fuel'' =>
        show (match f (c :: cs) with
          | some (n, repl) =>
            if 1 ≤ n then repl ++ subF f fuel ((c :: cs).drop n) else c :: subF f fuel cs
          | none => c :: subF f fuel cs) = (match f (c :: cs) with
          | some (n, repl) =>
            if 1 ≤ n then repl ++ subF f fuel'' ((c :: cs).drop n) else c :: subF f fuel'' cs
          | none => c :: subF f fuel'' cs)
        have hcs : cs.length ≤ fuel := by simpa using hs
        have hcs' : cs.length ≤ fuel'' := by simpa using hs'
        cases hm : f (c :: cs) with
        | none => rw [ih fuel'' cs hcs hcs']
        | some p =>
          obtain ⟨n, repl⟩ := p
          by_cases hn : 1 ≤ n
          · have hd : ((c :: cs).drop n).length ≤ fuel := by
              simp only [List.length_drop, List.length_cons]
              omega
            have hd' : ((c :: cs).drop n).length ≤ fuel'' := by
              simp only [List.length_drop, List.length_cons]
              omega
            simp only [if_pos hn, ih fuel'' _ hd hd']
          · simp only [if_neg hn, ih fuel'' cs hcs hcs']

theorem subE_nil (f : List Char → Option (Nat × List Char)) : subE f [] = [] := rfl

theorem subE_cons_none {f : List Char → Option (Nat × List Char)} {c : Char} {cs : List Char}
    (h : f (c :: cs) = none) : subE f (c :: cs) = c :: subE f cs := by
  show (match f (c :: cs) with
    | some (n, repl) =>
      if 1 ≤ n then repl ++ subF f cs.length ((c :: cs).drop n) else c :: subF f cs.length cs
    | none => c :: subF f cs.length cs) = _
  rw [h]
  rfl

theorem subE_cons_some {f : List Char → Option (Nat × List Char)} {c : Char} {cs : List Char}
    {n : Nat} {repl : List Char} (h : f (c :: cs) = some (n, repl)) (hn : 1 ≤ n) :
    subE f (c :: cs) = repl ++ subE f ((c :: cs).drop n) := by
  show (match f (c :: cs) with
    | some (n, repl) =>
      if 1 ≤ n then repl ++ subF f cs.length ((c :: cs).drop n) else c :: subF f cs.length cs
    | none => c :: subF f cs.length cs) = _
  rw [h]
  simp only [if_pos hn]
  rw [subF_fuel cs.length ((c :: cs).drop n).length _
    (by simp only [List.length_drop, List.length_cons]; omega) (le_refl _)]
  rfl

theorem subE_cons_stall {f : List Char → Option (Nat × List Char)} {c : Char} {cs : List Char}
    {n : Nat} {repl : List Char} (h : f (c :: cs) = some (n, repl)) (hn : ¬ 1 ≤ n) :
    subE f (c :: cs) = c :: subE f cs := by
  show (match f (c :: cs) with
    | some (n, repl) =>
      if 1 ≤ n then repl ++ subF f cs.length ((c :: cs).drop n) else c :: subF f cs.length cs
    | none => c :: subF f cs.length cs) = _
  rw [h]
  simp only [if_neg hn]
  rfl

/-- A region where the matcher never fires is copied verbatim. -/
theorem subE_no_match {f : List Char → Option (Nat × List Char)} :
    ∀ {s : List Char}, (∀ i, i < s.length → f (s.drop i) = none) → subE f s = s := by
  intro s
  induction s with
  | nil => intro _; exact subE_nil f
  | cons c cs ih =>
    intro h
    have h0 : f (c :: cs) = none := by simpa using h 0 (by simp)
    rw [subE_cons_none h0]
    have : ∀ i, i < cs.length → f (cs.drop i) = none := by
      intro i hi
      simpa using h (i + 1) (by simpa using Nat.succ_lt_succ hi)
    rw [ih this]

/-- Splicing: if the matcher never fires inside `a` and fires on the nonempty
suffix `b` (consuming `n ≥ 1` characters for replacement `repl`), then the
scan copies `a`, emits `repl`, and continues after the consumed characters. -/
theorem subE_splice {f : List Char → Option (Nat × List Char)} {a b repl : List Char} {n : Nat}
    (ha : ∀ i, i < a.length → f ((a ++ b).drop i) = none)
    (hb : f b = some (n, repl)) (hn : 1 ≤ n) (hbne : b ≠ []) :
    subE f (a ++ b) = a ++ repl ++ subE f (b.drop n) := by
  induction a with
  | nil =>
    cases b with
    | nil => exact absurd rfl hbne
    | cons c cs =>
      show subE f (c :: cs) = _
      rw [subE_cons_some hb hn]
      simp
  | cons c a' ih =>
    have h0 : f (c :: (a' ++ b)) = none := by simpa using ha 0 (by simp)
    show subE f (c :: (a' ++ b)) = _
    rw [subE_cons_none h0]
    have ih' := ih (fun i hi => by simpa using ha (i + 1) (by simpa using Nat.succ_lt_succ hi))
    rw [ih']
    simp

/-- A substitution whose replacements are all empty only ever deletes text:
the output is a sublist of the input. -/
theorem subE_sublist_of_empty_repl {f : List Char → Option (Nat × List Char)}
    (hf : ∀ s n r, f s = some (n, r) → r = []) :
    ∀ s : List Char, List.Sublist (subE f s) s := by
  have main : ∀ L : Nat, ∀ s : List Char, s.length = L → List.Sublist (subE f s) s := by
    intro L
    induction L using Nat.strong_induction_on with
    | _ L ih =>
      intro s hls
      cases s with
      | nil => rw [subE_nil]
      | cons c cs =>
        cases hm : f (c :: cs) with
        | none =>
          rw [subE_cons_none hm]
          exact (ih cs.length (by simp [← hls]) cs rfl).cons₂ c
        | some p =>
          obtain ⟨n, r⟩ := p
          by_cases hn : 1 ≤ n
          · have hr : r = [] := hf _ _ _ hm
            rw [subE_cons_some hm hn, hr]
            simp only [List.nil_append]
            have h1 : List.Sublist (subE f ((c :: cs).drop n)) ((c :: cs).drop n) := by
              refine ih ((c :: cs).drop n).length ?_ _ rfl
              rw [← hls]
              simp only [List.length_drop, List.length_cons]
              omega
            exact h1.trans (List.drop_sublist n (c :: cs))
          · rw [subE_cons_stall hm hn]
            exact (ih cs.length (by simp [← hls]) cs rfl).cons₂ c
  exact fun s => main s.length s rfl

/-- The scan loop of Python's `re.search`: return the first position's match
data (here: whatever the matcher computes, e.g. a captured group).  All
patterns modelled here require at least one character, so the empty final
position never matches. -/
def searchE {α : Type} (f : List Char → Option α) : List Char → Option α
  | [] => none
  | c :: cs =>
    match f (c :: cs) with
    | some r => some r
    | none => searchE f cs

theorem searchE_cons_some {α : Type} {f : List Char → Option α} {c : Char} {cs : List Char}
    {r : α} (h : f (c :: cs) = some r) : searchE f (c :: cs) = some r := by
  simp [searchE, h]

theorem searchE_cons_none {α : Type} {f : List Char → Option α} {c : Char} {cs : List Char}
    (h : f (c :: cs) = none) : searchE f (c :: cs) = searchE f cs := by
  simp [searchE, h]

theorem searchE_no_match {α : Type} {f : List Char → Option α} :
    ∀ {s : List Char}, (∀ i, i < s.length → f (s.drop i) = none) → searchE f s = none := by
  intro s
  induction s with
  | nil => intro _; rfl
  | cons c cs ih =>
    intro h
    rw [searchE_cons_none (by simpa using h 0 (by simp))]
    exact ih fun i hi => by simpa using h (i + 1) (by simpa using Nat.succ_lt_succ hi)

theorem searchE_skip {α : Type} {f : List Char → Option α} {a b : List Char}
    (ha : ∀ i, i < a.length → f ((a ++ b).drop i) = none) :
    searchE f (a ++ b) = searchE f b := by
  induction a with
  | nil => rfl
  | cons c a' ih =>
    show searchE f (c :: (a' ++ b)) = _
    rw [searchE_cons_none (by simpa using ha 0 (by simp))]
    exact ih fun i hi => by simpa using ha (i + 1) (by simpa using Nat.succ_lt_succ hi)

/-- Fuelled scan loop of Python's `re.finditer`: collect the data of each
non-overlapping match, resuming after each match (all modelled patterns
consume `n ≥ 1` characters; `n = 0` is treated as a non-match). -/
def collectF {α : Type} (f : List Char → Option (Nat × α)) : Nat → List Char → List α
  | _, [] => []
  | 0, _ => []
  | fuel + 1, c :: cs =>
    match f (c :: cs) with
    | some (n, x) =>
      if 1 ≤ n then x :: collectF f fuel ((c :: cs).drop n) else collectF f fuel cs
    | none => collectF f fuel cs

/-- The scan loop of Python's `re.finditer`. -/
def collectE {α : Type} (f : List Char → Option (Nat × α)) (s : List Char) : List α :=
  collectF f s.length s

theorem collectF_fuel {α : Type} {f : List Char → Option (Nat × α)} :
    ∀ (fuel fuel' : Nat) (s : List Char), s.length ≤ fuel → s.length ≤ fuel' →
      collectF f fuel s = collectF f fuel' s := by
  intro fuel
  induction fuel with
  | zero =>
    intro fuel' s hs _
    have : s = [] := List.length_eq_zero.mp (Nat.le_zero.mp hs)
    subst this
    cases fuel' <;> rfl
  | succ fuel ih =>
    intro fuel' s hs hs'
    cases s with
    | nil => cases fuel' <;> rfl
    | cons c cs =>
      cases fuel' with
      | zero => simp at hs'
      | succ fuel'' =>
        show (match f (c :: cs) with
          | some (n, x) =>
            if 1 ≤ n then x :: collectF f fuel ((c :: cs).drop n) else collectF f fuel cs
          | none => collectF f fuel cs) = (match f (c :: cs) with
          | some (n, x) =>
            if 1 ≤ n then x :: collectF f fuel'' ((c :: cs).drop n) else collectF f fuel'' cs
          | none => collectF f fuel'' cs)
        have hcs : cs.length ≤ fuel := by simpa using hs
        have hcs' : cs.length ≤ fuel'' := by simpa using hs'
        cases hm : f (c :: cs) with
        | none => rw [ih fuel'' cs hcs hcs']
        | some p =>
          obtain ⟨n, x⟩ := p
          by_cases hn : 1 ≤ n
          · have hd : ((c :: cs).drop n).length ≤ fuel := by
              simp only [List.length_drop, List.length_cons]
              omega
            have hd' : ((c :: cs).drop n).length ≤ fuel'' := by
              simp only [List.length_drop, List.length_cons]
              omega
            simp only [if_pos hn, ih fuel'' _ hd hd']
          · simp only [if_neg hn, ih fuel'' cs hcs hcs']

theorem collectE_nil {α : Type} (f : List Char → Option (Nat × α)) : collectE f [] = [] := rfl

theorem collectE_cons_none {α : Type} {f : List Char → Option (Nat × α)} {c : Char}
    {cs : List Char} (h : f (c :: cs) = none) : collectE f (c :: cs) = collectE f cs := by
  show (match f (c :: cs) with
    | some (n, x) =>
      if 1 ≤ n then x :: collectF f cs.length ((c :: cs).drop n) else collectF f cs.length cs
    | none => collectF f cs.length cs) = _
  rw [h]
  rfl

theorem collectE_cons_some {α : Type} {f : List Char → Option (Nat × α)} {c : Char}
    {cs : List Char} {n : Nat} {x : α} (h : f (c :: cs) = some (n, x)) (hn : 1 ≤ n) :
    collectE f (c :: cs) = x :: collectE f ((c :: cs).drop n) := by
  show (match f (c :: cs) with
    | some (n, x) =>
      if 1 ≤ n then x :: collectF f cs.length ((c :: cs).drop n) else collectF f cs.length cs
    | none => collectF f cs.length cs) = _
  rw [h]
  simp only [if_pos hn]
  rw [collectF_fuel cs.length ((c :: cs).drop n).length _
    (by simp only [List.length_drop, List.length_cons]; omega) (le_refl _)]
  rfl

theorem collectE_no_match {α : Type} {f : List Char → Option (Nat × α)} :
    ∀ {s : List Char}, (∀ i, i < s.length → f (s.drop i) = none) → collectE f s = [] := by
  intro s
  induction s with
  | nil => intro _; exact collectE_nil f
  | cons c cs ih =>
    intro h
    rw [collectE_cons_none (by simpa using h 0 (by simp))]
    exact ih fun i hi => by simpa using h (i + 1) (by simpa using Nat.succ_lt_succ hi)

theorem collectE_splice {α : Type} {f : List Char → Option (Nat × α)} {a b : List Char}
    {n : Nat} {x : α} (ha : ∀ i, i < a.length → f ((a ++ b).drop i) = none)
    (hb : f b = some (n, x)) (hn : 1 ≤ n) (hbne : b ≠ []) :
    collectE f (a ++ b) = x :: collectE f (b.drop n) := by
  induction a with
  | nil =>
    cases b with
    | nil => exact absurd rfl hbne
    | cons c cs =>
      show collectE f (c :: cs) = _
      rw [collectE_cons_some hb hn]
  | cons c a' ih =>
    show collectE f (c :: (a' ++ b)) = _
    rw [collectE_cons_none (by simpa using ha 0 (by simp))]
    exact ih fun i hi => by simpa using ha (i + 1) (by simpa using Nat.succ_lt_succ hi)

/-- `spanLen p s` : length of the maximal prefix of `s` whose characters all
satisfy `p` (how many characters a greedy character-class star consumes). -/
def spanLen (p : Char → Bool) : List Char → Nat
  | [] => 0
  | c :: cs => if p c then spanLen p cs + 1 else 0

/-- Python `str.endswith`. -/
def endsWith (pat s : List Char) : Bool := startsWith pat.reverse s.reverse

/-- The working directory as seen by `_prepare_bibliography`
(`src/tex2epub/preprocessor.py:341`): existence tests for
`work_dir / name` and the result of `work_dir.glob("*.bib")`. -/
structure WorkDir where
  hasFile : List Char → Bool
  bibGlob : List (List Char)

/-- Literal head of the regex `\\bibliography\{([^}]+)\}`. -/
def bibPat : List Char := "\\bibliography\x7b".data

/-- Literal head of the regex `\\bibliographystyle\{[^}]*\}\s*\n?`. -/
def bibstylePat : List Char := "\\bibliographystyle\x7b".data

/-- The `.bib` extension. -/
def dotBib : List Char := ".bib".data

/-- Matcher for `re.search(r"\\bibliography\{([^}]+)\}", content)`: the
literal head, a nonempty maximal run of non-`}` characters (the captured
group), and the closing brace.  Greedy matching of `[^}]+` is deterministic
here: shortening the run leaves a non-`}` character where `\}` must match. -/
def bibNameTry (s : List Char) : Option (List Char) :=
  if startsWith bibPat s then
    let r := s.drop bibPat.length
    let k := spanLen (fun c => !(c = rb)) r
    if 1 ≤ k then
      match r.drop k with
      | c :: _ => if c = rb then some (r.take k) else none
      | [] => none
    else none
  else none

/-- Matcher for `re.sub(r"\\bibliographystyle\{[^}]*\}\s*\n?", "", content)`.
Since `\n` is itself in `\s`, the greedy `\s*` followed by optional `\n?`
consumes exactly the maximal whitespace run.  Replacement is empty. -/
def bibstyleTry (s : List Char) : Option (Nat × List Char) :=
  if startsWith bibstylePat s then
    let r := s.drop bibstylePat.length
    let k := spanLen (fun c => !(c = rb)) r
    match r.drop k with
    | c :: rest =>
      if c = rb then some (bibstylePat.length + k + 1 + spanLen isPySpace rest, [])
      else none
    | [] => none
  else none

/-- `_prepare_bibliography`'s bibliography-file lookup
(`src/tex2epub/preprocessor.py:348-358`): find the declared name, default
the `.bib` extension, keep it if the file exists, otherwise fall back to the
first `*.bib` glob result (if any).  The Python function computes this into
a local variable and never uses it to alter the document text. -/
def find_bib_name (wd : WorkDir) (content : List Char) : Option (List Char) :=
  match searchE bibNameTry content with
  | none => none
  | some g =>
    let n := if endsWith dotBib g then g else g ++ dotBib
    if wd.hasFile n then some n
    else
      match wd.bibGlob with
      | [] => some n
      | f :: _ => some f

/-- `_prepare_bibliography` (`src/tex2epub/preprocessor.py:341-363`): perform
the bibliography-file lookup (whose result the source drops), then delete
every `\bibliographystyle{...}` directive. -/
def prepare_bibliography (wd : WorkDir) (content : List Char) : List Char :=
  let _bib := find_bib_name wd content
  subE bibstyleTry content

theorem bibstyleTry_empty_repl (s : List Char) (n : Nat) (r : List Char)
    (h : bibstyleTry s = some (n, r)) : r = [] := by
  unfold bibstyleTry at h
  simp only [] at h
  repeat' split at h
  all_goals first
    | exact Option.noConfusion h
    | (simp only [Option.some.injEq, Prod.mk.injEq] at h; exact h.2.symm)

/-- Claim C10: the bibliography-preparer changes the document only by
deleting bibliography-style directives, and the file-system lookup of the
declared bibliography file never influences the returned text: (1) the
result is the same for any two working directories, (2) the result is a
sublist of the input (only deletions), and (3) if no position of the input
matches the `\bibliographystyle{...}` pattern, the input is returned
verbatim. -/
theorem c10_prepare_bibliography_frame (wd wd' : WorkDir) (content : List Char) :
    prepare_bibliography wd content = prepare_bibliography wd' content ∧
    List.Sublist (prepare_bibliography wd content) content ∧
    ((∀ i, i < content.length → bibstyleTry (content.drop i) = none) →
      prepare_bibliography wd content = content) := by
  refine ⟨rfl, ?_, ?_⟩
  · exact subE_sublist_of_empty_repl bibstyleTry_empty_repl content
  · intro h
    exact subE_no_match h

/-- Witness for C10 at concrete inputs: two different working directories,
a document with one style directive (deleted), and one without (unchanged). -/
theorem c10_witness :
    prepare_bibliography ⟨fun _ => true, []⟩
        "\\bibliography\x7brefs\x7d\n\\bibliographystyle\x7bplain\x7d\nbody".data =
      prepare_bibliography ⟨fun _ => false, ["other.bib".data]⟩
        "\\bibliography\x7brefs\x7d\n\\bibliographystyle\x7bplain\x7d\nbody".data ∧
    prepare_bibliography ⟨fun _ => true, []⟩ "no directives here".data =
      "no directives here".data := by
  constructor
  · exact (c10_prepare_bibliography_frame ⟨fun _ => true, []⟩ ⟨fun _ => false, ["other.bib".data]⟩
      "\\bibliography\x7brefs\x7d\n\\bibliographystyle\x7bplain\x7d\nbody".data).1
  · exact (c10_prepare_bibliography_frame ⟨fun _ => true, []⟩ ⟨fun _ => true, []⟩
      "no directives here".data).2.2 (by decide)

theorem firstOcc_none_spec {pat s : List Char} (h : firstOcc pat s = none) :
    ∀ i, startsWith pat (s.drop i) = false := by
  have hne : pat ≠ [] := by
    intro hp
    subst hp
    cases s <;> simp [firstOcc, startsWith] at h
  intro i
  induction s generalizing i with
  | nil =>
    cases pat with
    | nil => exact absurd rfl hne
    | cons p ps => simp [startsWith]
  | cons c cs ih =>
    simp only [firstOcc] at h
    by_cases hs : startsWith pat (c :: cs) = true
    · rw [if_pos hs] at h
      exact Option.noConfusion h
    · rw [if_neg hs] at h
      have h2 : firstOcc pat cs = none := by
        cases hx : firstOcc pat cs with
        | none => rfl
        | some k => rw [hx] at h; exact Option.noConfusion h
      cases i with
      | zero =>
        simp only [List.drop_zero]
        cases hy : startsWith pat (c :: cs) with
        | false => rfl
        | true => exact absurd hy hs
      | succ j =>
        have := ih h2 j
        simpa using this

theorem firstOcc_some_spec {pat s : List Char} {i : Nat} (h : firstOcc pat s = some i) :
    startsWith pat (s.drop i) = true ∧ ∀ j, j < i → startsWith pat (s.drop j) = false := by
  induction s generalizing i with
  | nil =>
    by_cases hs : startsWith pat [] = true
    · simp only [firstOcc, if_pos hs] at h
      obtain rfl := (Option.some.inj h).symm
      exact ⟨by simpa using hs, fun j hj => absurd hj (Nat.not_lt_zero j)⟩
    · simp only [firstOcc, if_neg hs] at h
      exact Option.noConfusion h
  | cons c cs ih =>
    by_cases hs : startsWith pat (c :: cs) = true
    · simp only [firstOcc, if_pos hs] at h
      obtain rfl := (Option.some.inj h).symm
      exact ⟨by simpa using hs, fun j hj => absurd hj (Nat.not_lt_zero j)⟩
    · simp only [firstOcc, if_neg hs] at h
      cases hx : firstOcc pat cs with
      | none => rw [hx] at h; exact Option.noConfusion h
      | some k =>
        rw [hx] at h
        simp only [Option.map_some'] at h
        obtain rfl := (Option.some.inj h).symm
        obtain ⟨h1, h2⟩ := ih hx
        refine ⟨by simpa using h1, ?_⟩
        intro j hj
        cases j with
        | zero =>
          simp only [List.drop_zero]
          cases hy : startsWith pat (c :: cs) with
          | false => rfl
          | true => exact absurd hy hs
        | succ m =>
          have := h2 m (by omega)
          simpa using this

theorem hasOcc_append_right {pat a b : List Char} (h : hasOcc pat b = true) :
    hasOcc pat (a ++ b) = true := firstOcc_isSome_mono h

theorem hasOcc_append_left {pat a b : List Char} (h : hasOcc pat a = true) :
    hasOcc pat (a ++ b) = true := by
  cases pat with
  | nil => exact hasOcc_of_startsWith_drop (i := 0) rfl
  | cons p ps =>
    unfold hasOcc at h
    cases hx : firstOcc (p :: ps) a with
    | none => rw [hx] at h; simp at h
    | some i =>
      obtain ⟨h1, _⟩ := firstOcc_some_spec hx
      have hi : i ≤ a.length := by
        by_contra hgt
        have hdrop : a.drop i = [] := List.drop_eq_nil_of_le (by omega)
        rw [hdrop] at h1
        simp [startsWith] at h1
      have hsw : startsWith (p :: ps) ((a ++ b).drop i) = true := by
        rw [List.drop_append_of_le_length hi]
        exact startsWith_extend h1 b
      exact hasOcc_of_startsWith_drop hsw

/-- Matcher of a literal pattern with a fixed replacement: the per-position
step of Python's `str.replace(pat, repl)` (for nonempty `pat`, which is the
only way the repository uses it). -/
def litTry (pat repl : List Char) (s : List Char) : Option (Nat × List Char) :=
  if 1 ≤ pat.length ∧ startsWith pat s = true then some (pat.length, repl) else none

/-- Python `str.replace` for a nonempty pattern: replace every
non-overlapping occurrence, scanning left to right. -/
def pyReplace (pat repl s : List Char) : List Char := subE (litTry pat repl) s

theorem litTry_none_of_not_starts {pat repl s : List Char}
    (h : startsWith pat s = false) : litTry pat repl s = none := by
  unfold litTry
  rw [if_neg]
  rintro ⟨-, h2⟩
  rw [h] at h2
  exact Bool.noConfusion h2

theorem litTry_some_of_starts {pat repl s : List Char} (hp : 1 ≤ pat.length)
    (h : startsWith pat s = true) : litTry pat repl s = some (pat.length, repl) := by
  unfold litTry
  rw [if_pos ⟨hp, h⟩]

theorem pyReplace_no_occ {pat repl s : List Char} (h : hasOcc pat s = false) :
    pyReplace pat repl s = s := by
  have hnone : firstOcc pat s = none := by
    unfold hasOcc at h
    cases hx : firstOcc pat s with
    | none => rfl
    | some k => rw [hx] at h; simp at h
  exact subE_no_match fun i _ => litTry_none_of_not_starts (firstOcc_none_spec hnone i)

/-- If the pattern occurs and the replacement contains `sub`, then the
replaced text contains `sub`. -/
theorem pyReplace_carries {pat repl s sub : List Char} (hp : 1 ≤ pat.length)
    (hocc : hasOcc pat s = true) (hsub : hasOcc sub repl = true) :
    hasOcc sub (pyReplace pat repl s) = true := by
  unfold hasOcc at hocc
  cases hx : firstOcc pat s with
  | none => rw [hx] at hocc; simp at hocc
  | some i =>
    obtain ⟨h1, h2⟩ := firstOcc_some_spec hx
    have hbne : s.drop i ≠ [] := by
      intro hz
      rw [hz] at h1
      cases pat with
      | nil => simp at hp
      | cons p ps => simp [startsWith] at h1
    have hi : i ≤ s.length := by
      by_contra hgt
      exact hbne (List.drop_eq_nil_of_le (by omega))
    have hsplit : s = s.take i ++ s.drop i := (List.take_append_drop i s).symm
    have hres : pyReplace pat repl s =
        s.take i ++ repl ++ subE (litTry pat repl) ((s.drop i).drop pat.length) := by
      unfold pyReplace
      conv_lhs => rw [hsplit]
      refine subE_splice ?_ (litTry_some_of_starts hp h1) hp hbne
      intro j hj
      have hjlen : j < i := by
        have : (s.take i).length = i := List.length_take_of_le hi
        omega
      rw [← hsplit]
      exact litTry_none_of_not_starts (h2 j hjlen)
    rw [hres, List.append_assoc]
    exact hasOcc_append_right (hasOcc_append_left hsub)

/-- The embedded font file list `FONT_FILES` (`src/tex2epub/postprocessor.py:11`). -/
def fontFiles : List (List Char) :=
  ["lmroman10-regular.otf".data, "lmroman10-bold.otf".data, "lmroman10-italic.otf".data,
   "lmroman10-bolditalic.otf".data, "lmsans10-regular.otf".data, "lmsans10-bold.otf".data,
   "lmmono10-regular.otf".data]

/-- `font_name.replace(".", "-").replace("-otf", "")`
(`src/tex2epub/postprocessor.py:213`). -/
def fontItemId (n : List Char) : List Char :=
  pyReplace "-otf".data [] (pyReplace ".".data "-".data n)

/-- The `font_items` string built by `_update_manifest`
(`src/tex2epub/postprocessor.py:211-214`). -/
def fontItems : List Char :=
  (fontFiles.map fun n =>
    "    <item id=\"".data ++ fontItemId n ++ "\" href=\"fonts/".data ++ n ++
      "\" media-type=\"font/otf\"/>\n".data).flatten

/-- The marker filename whose presence makes `_update_manifest` a no-op
(`src/tex2epub/postprocessor.py:207`). -/
def fontMarker : List Char := "lmroman10-regular.otf".data

/-- The manifest closing tag. -/
def manifestClose : List Char := "</manifest>".data

/-- `_update_manifest`'s text transformation on the OPF manifest
(`src/tex2epub/postprocessor.py:197-218`): a no-op when the marker font
filename is already present, otherwise replace `</manifest>` by the font
item entries followed by `  </manifest>`.  (Locating the `.opf` file and
reading/writing it are file-system plumbing around this transformation.) -/
def update_manifest (content : List Char) : List Char :=
  if hasOcc fontMarker content then content
  else pyReplace manifestClose (fontItems ++ "  </manifest>".data) content

/-- Claim C6: the manifest patch is idempotent — applying it twice to any
manifest text gives the same result as applying it once, because a patched
manifest contains the marker font filename (or contained it already, or has
no closing tag so nothing was inserted). -/
theorem c6_update_manifest_idempotent (content : List Char) :
    update_manifest (update_manifest content) = update_manifest content := by
  by_cases h1 : hasOcc fontMarker content = true
  · have hinner : update_manifest content = content := by
      unfold update_manifest
      rw [if_pos h1]
    rw [hinner]
    exact hinner
  · have hinner : update_manifest content =
        pyReplace manifestClose (fontItems ++ "  </manifest>".data) content := by
      unfold update_manifest
      rw [if_neg h1]
    by_cases h2 : hasOcc manifestClose content = true
    · have hcarry : hasOcc fontMarker
          (pyReplace manifestClose (fontItems ++ "  </manifest>".data) content) = true := by
        refine pyReplace_carries (by decide) h2 ?_
        exact hasOcc_append_left (by decide)
      rw [hinner]
      unfold update_manifest
      rw [if_pos hcarry]
    · have h2' : hasOcc manifestClose content = false := by
        cases hx : hasOcc manifestClose content with
        | false => rfl
        | true => exact absurd hx h2
      have hid : pyReplace manifestClose (fontItems ++ "  </manifest>".data) content = content :=
        pyReplace_no_occ h2'
      rw [hinner, hid]
      exact hinner.trans hid

/-- A file system, mapping a full path string to the file's text when the
file exists (`path.exists()` / `path.read_text()`). -/
def FS : Type := List Char → Option (List Char)

/-- `work_dir / filename` on POSIX paths. -/
def joinPath (dir name : List Char) : List Char := dir ++ "/".data ++ name

/-- `path.parent`: everything before the last `/` (the argument always
contains one here, since it comes from `joinPath`). -/
def parentDir (p : List Char) : List Char :=
  match firstOcc "/".data p.reverse with
  | some k => p.take (p.length - 1 - k)
  | none => p

/-- Literal head of the regex `\\input\{([^}]+)\}`. -/
def inputKey : List Char := "\\input\x7b".data

/-- Literal head of the regex `\\include\{([^}]+)\}`. -/
def includeKey : List Char := "\\include\x7b".data

/-- Matcher plus replacement for one `\input{...}` / `\include{...}`
directive, mirroring `_replace_input` (`src/tex2epub/preprocessor.py:47-55`):
the captured group is the nonempty run up to the closing brace (`[^}]+`);
a `.tex` extension is added when missing; if the file exists its contents
are resolved recursively (via `recur`, the resolver at the next depth) and
substituted; otherwise the matched text is kept unchanged. -/
def inclTry (fs : FS) (recur : List Char → List Char → List Char) (dir key : List Char)
    (s : List Char) : Option (Nat × List Char) :=
  if startsWith key s then
    let r := s.drop key.length
    match firstOcc [rb] r with
    | some j =>
      if 1 ≤ j then
        let total := key.length + j + 1
        let name := r.take j
        let fname := if endsWith ".tex".data name then name else name ++ ".tex".data
        let path := joinPath dir fname
        match fs path with
        | some sub => some (total, recur (parentDir path) sub)
        | none => some (total, s.take total)
      else none
    | none => none
  else none

/-- `_resolve_includes` (`src/tex2epub/preprocessor.py:42-59`) with the
recursion made structural on the remaining depth budget: the source guards
`if depth > 10: return content` and recurses at `depth + 1`, which is the
same as starting with a budget of `11` and stopping at `0`.  At each depth
all `\input{...}` directives are substituted first, then all
`\include{...}` directives on the result. -/
def resolve_includes (fs : FS) : Nat → List Char → List Char → List Char
  | 0, _, content => content
  | gas + 1, dir, content =>
    let c1 := subE (inclTry fs (fun d c => resolve_includes fs gas d c) dir inputKey) content
    subE (inclTry fs (fun d c => resolve_includes fs gas d c) dir includeKey) c1

/-- `_resolve_includes` with the source's `depth` parameter. -/
def resolve_includes_at (fs : FS) (content : List Char) (dir : List Char) (depth : Nat) :
    List Char :=
  resolve_includes fs (11 - depth) dir content

/-- Claim C8: include resolution is total by construction (the model is a
terminating function for every file system, including circular include
chains, because recursion is bounded by the fixed depth budget), and beyond
the depth bound the text is returned unchanged rather than failing. -/
theorem c8_resolve_includes_depth_guard (fs : FS) (content dir : List Char) (depth : Nat)
    (h : depth > 10) : resolve_includes_at fs content dir depth = content := by
  unfold resolve_includes_at
  have h0 : 11 - depth = 0 := by omega
  rw [h0]
  rfl

/-- Witness for C8: a circular file system (`d/a.tex` includes itself); at
depth 11 the text comes back unchanged. -/
theorem c8_witness :
    resolve_includes_at
      (fun p => if p = "d/a.tex".data then some "\\input\x7ba\x7d".data else none)
      "\\input\x7ba\x7d".data "d".data 11 = "\\input\x7ba\x7d".data :=
  c8_resolve_includes_depth_guard _ _ _ 11 (by decide)

/-- One entry of the rebuilt EPUB zip: its archive name and whether it is
deflated (`ZIP_DEFLATED`) rather than stored (`ZIP_STORED`). -/
structure ZEntry where
  name : List Char
  deflated : Bool
deriving DecidableEq

/-- Lexicographic comparison of path strings by code point: the order in
which `sorted()` lists the extracted files (POSIX `PurePath` ordering
compares the path strings). -/
def lexLe : List Char → List Char → Bool
  | [], _ => true
  | _ :: _, [] => false
  | a :: as, b :: bs => if a < b then true else if b < a then false else lexLe as bs

theorem lexLe_total : ∀ a b : List Char, lexLe a b = true ∨ lexLe b a = true := by
  intro a
  induction a with
  | nil => intro b; left; rfl
  | cons x xs ih =>
    intro b
    cases b with
    | nil => right; rfl
    | cons y ys =>
      rcases lt_trichotomy x y with hlt | heq | hgt
      · left
        simp [lexLe, hlt]
      · subst heq
        rcases ih ys with h | h
        · left
          simp [lexLe, h]
        · right
          simp [lexLe, h]
      · right
        simp [lexLe, hgt]

theorem lexLe_trans : ∀ a b c : List Char,
    lexLe a b = true → lexLe b c = true → lexLe a c = true := by
  intro a
  induction a with
  | nil => intro b c _ _; rfl
  | cons x xs ih =>
    intro b c hab hbc
    cases b with
    | nil => simp [lexLe] at hab
    | cons y ys =>
      cases c with
      | nil => simp [lexLe] at hbc
      | cons z zs =>
        simp only [lexLe] at hab hbc ⊢
        rcases lt_trichotomy x y with hxy | hxy | hxy
        · rcases lt_trichotomy y z with hyz | hyz | hyz
          · simp [lt_trans hxy hyz]
          · subst hyz
            simp [hxy]
          · rw [if_neg (lt_asymm hyz), if_pos hyz] at hbc
            exact Bool.noConfusion hbc
        · subst hxy
          rcases lt_trichotomy x z with hyz | hyz | hyz
          · simp [hyz]
          · subst hyz
            rw [if_neg (lt_irrefl x), if_neg (lt_irrefl x)] at hab hbc ⊢
            exact ih _ _ hab hbc
          · rw [if_neg (lt_asymm hyz), if_pos hyz] at hbc
            exact Bool.noConfusion hbc
        · rw [if_neg (lt_asymm hxy), if_pos hxy] at hab
          exact Bool.noConfusion hab

/-- The relation by which the repackaging step orders archive names. -/
def lexRel (a b : List Char) : Prop := lexLe a b = true

instance : DecidableRel lexRel := fun a b => inferInstanceAs (Decidable (lexLe a b = true))

instance : IsTotal (List Char) lexRel := ⟨lexLe_total⟩

instance : IsTrans (List Char) lexRel := ⟨lexLe_trans⟩

/-- `path.name`: the final path component. -/
def baseName (p : List Char) : List Char :=
  match firstOcc "/".data p.reverse with
  | some k => (p.reverse.take k).reverse
  | none => p

/-- The fixed first archive entry's name. -/
def mimetypeName : List Char := "mimetype".data

/-- The per-file step of `_repackage_epub`'s write loop
(`src/tex2epub/postprocessor.py:328-331`): skip any file whose final path
component is `mimetype`, write everything else deflated. -/
def mtKeep (p : List Char) : Option ZEntry :=
  if baseName p = mimetypeName then none else some ⟨p, true⟩

/-- `_repackage_epub` (`src/tex2epub/postprocessor.py:320-331`) on the list
of extracted files (paths relative to the archive root): if a top-level
`mimetype` file exists it is written first and stored uncompressed; then
every file is visited in sorted path order and written deflated unless its
final component is named `mimetype`. -/
def repackage_epub (files : List (List Char)) : List ZEntry :=
  (if mimetypeName ∈ files then [⟨mimetypeName, false⟩] else []) ++
    (List.insertionSort lexRel files).filterMap mtKeep

theorem mtKeep_some {p : List Char} {e : ZEntry} (h : mtKeep p = some e) :
    e.name = p ∧ e.deflated = true := by
  unfold mtKeep at h
  split at h
  · exact Option.noConfusion h
  · obtain rfl := Option.some.inj h
    exact ⟨rfl, rfl⟩

theorem mapname_filterMap_mtKeep : ∀ l : List (List Char),
    ((l.filterMap mtKeep).map ZEntry.name) =
      l.filter (fun p => if baseName p = mimetypeName then false else true) := by
  intro l
  induction l with
  | nil => rfl
  | cons p t ih =>
    by_cases hp : baseName p = mimetypeName
    · have h1 : mtKeep p = none := by unfold mtKeep; rw [if_pos hp]
      rw [List.filterMap_cons, h1, List.filter_cons, if_pos hp]
      simpa using ih
    · have h1 : mtKeep p = some ⟨p, true⟩ := by unfold mtKeep; rw [if_neg hp]
      rw [List.filterMap_cons, h1, List.filter_cons, if_neg hp]
      simp only [List.map_cons, ih]
      simp [hp]

/-- Claim C7 (amended): when the extracted directory contains a top-level
`mimetype` file, the rewritten archive lists `mimetype` first and stored
(uncompressed), and the remaining entries are in sorted path order with
deflate compression; however they comprise only the files whose final path
component is not `mimetype` — a file named `mimetype` inside a
subdirectory is omitted from the archive (see the counterexample). -/
theorem c7_repackage_epub_layout (files : List (List Char)) (h : mimetypeName ∈ files) :
    (repackage_epub files).head? = some ⟨mimetypeName, false⟩ ∧
    List.Pairwise (fun e₁ e₂ : ZEntry => lexRel e₁.name e₂.name)
      (repackage_epub files).tail ∧
    (∀ e ∈ (repackage_epub files).tail, e.deflated = true) ∧
    List.Perm ((repackage_epub files).tail.map ZEntry.name)
      (files.filter fun p => if baseName p = mimetypeName then false else true) := by
  have hre : repackage_epub files =
      ⟨mimetypeName, false⟩ :: (List.insertionSort lexRel files).filterMap mtKeep := by
    unfold repackage_epub
    rw [if_pos h]
    rfl
  rw [hre]
  refine ⟨rfl, ?_, ?_, ?_⟩
  · show List.Pairwise _ ((List.insertionSort lexRel files).filterMap mtKeep)
    rw [List.pairwise_filterMap]
    have hs : List.Pairwise lexRel (List.insertionSort lexRel files) :=
      List.sorted_insertionSort lexRel files
    refine hs.imp ?_
    intro a b hab x hx y hy
    obtain ⟨hxa, -⟩ := mtKeep_some hx
    obtain ⟨hyb, -⟩ := mtKeep_some hy
    rw [hxa, hyb]
    exact hab
  · intro e he
    simp only [List.tail_cons] at he
    obtain ⟨p, -, hp⟩ := List.mem_filterMap.mp he
    exact (mtKeep_some hp).2
  · show List.Perm (((List.insertionSort lexRel files).filterMap mtKeep).map ZEntry.name) _
    rw [mapname_filterMap_mtKeep]
    exact (List.perm_insertionSort lexRel files).filter _

/-- Witness for C7's amended statement at a concrete archive. -/
theorem c7_witness :
    (repackage_epub ["b.txt".data, "mimetype".data, "a.txt".data]).head? =
      some ⟨mimetypeName, false⟩ :=
  (c7_repackage_epub_layout ["b.txt".data, "mimetype".data, "a.txt".data] (by decide)).1

/-- Counterexample for C7 as stated: with files `mimetype` and
`a/mimetype`, the rewritten archive contains only the top-level `mimetype`
entry; the other file does not follow in sorted order — it is dropped. -/
theorem c7_counterexample :
    "a/mimetype".data ∈ ["mimetype".data, "a/mimetype".data] ∧
    repackage_epub ["mimetype".data, "a/mimetype".data] = [⟨"mimetype".data, false⟩] := by
  constructor
  · decide
  · decide

theorem startsWith_drop_false_of_cleanOf {pat a : List Char} (h : cleanOf pat a = true)
    (b : List Char) : ∀ i, i < a.length → startsWith pat ((a ++ b).drop i) = false := by
  intro i hi
  have hag := cleanOf_spec h i hi
  cases hy : startsWith pat ((a ++ b).drop i) with
  | false => rfl
  | true =>
    rw [List.drop_append_of_le_length (by omega)] at hy
    rw [agreeUpTo_of_startsWith_append hy] at hag
    exact Bool.noConfusion hag

theorem cleanOf_single_of_not_mem {c : Char} {a : List Char} (h : c ∉ a) :
    cleanOf [c] a = true := by
  unfold cleanOf
  refine List.all_eq_true.mpr ?_
  intro i hi
  have hi' := List.mem_range.mp hi
  cases hd : a.drop i with
  | nil =>
    have : a.length ≤ i := by
      have := congrArg List.length hd
      simp only [List.length_drop, List.length_nil] at this
      omega
    omega
  | cons x xs =>
    have hx : x ∈ a := by
      have : x ∈ a.drop i := by rw [hd]; exact List.mem_cons_self x xs
      exact List.mem_of_mem_drop this
    have hxc : ¬ (c = x) := fun hcx => h (hcx ▸ hx)
    simp [agreeUpTo, hxc]

/-- Matcher for `HEAD([^}]*)\}` where `HEAD` is a literal ending in `{`
(used for `\textbf{...}`, `\textit{...}`, `\emph{...}`); the match data is
(consumed length, captured group), and the `re.sub` replacement template
`\1` makes the replacement the captured group itself. -/
def oneArgTry (head : List Char) (s : List Char) : Option (Nat × List Char) :=
  if startsWith head s then
    let r := s.drop head.length
    let k := spanLen (fun c => !(c = rb)) r
    match r.drop k with
    | c :: _ => if c = rb then some (head.length + k + 1, r.take k) else none
    | [] => none
  else none

/-- Matcher for `\\[a-zA-Z]+\{([^}]*)\}` with replacement `\1` (the last
rewrite of `_clean_tex`).  The greedy `[a-zA-Z]+` run is deterministic: any
shorter run leaves a letter where `\{` must match. -/
def anyCmdTry (s : List Char) : Option (Nat × List Char) :=
  match s with
  | [] => none
  | c :: rest =>
    if c = bs then
      let L := spanLen isTexLetter rest
      if 1 ≤ L then
        match rest.drop L with
        | d :: r2 =>
          if d = lb then
            let k := spanLen (fun c => !(c = rb)) r2
            match r2.drop k with
            | e :: _ => if e = rb then some (1 + L + 1 + k + 1, r2.take k) else none
            | [] => none
          else none
        | [] => none
      else none
    else none

/-- Matcher for `[{}]` with empty replacement. -/
def braceTry (s : List Char) : Option (Nat × List Char) :=
  match s with
  | [] => none
  | c :: _ => if c = lb ∨ c = rb then some (1, []) else none

/-- Matcher for `\s+` with replacement `" "`. -/
def wsTry (s : List Char) : Option (Nat × List Char) :=
  match s with
  | [] => none
  | c :: rest => if isPySpace c then some (1 + spanLen isPySpace rest, " ".data) else none

/-- Python `str.strip()`. -/
def pyStrip (s : List Char) : List Char :=
  ((s.dropWhile isPySpace).reverse.dropWhile isPySpace).reverse

/-- Literal heads of the three formatting-command patterns of `_clean_tex`. -/
def textbfHead : List Char := "\\textbf\x7b".data

/-- Literal head of the `\textit{...}` pattern. -/
def textitHead : List Char := "\\textit\x7b".data

/-- Literal head of the `\emph{...}` pattern. -/
def emphHead : List Char := "\\emph\x7b".data

/-- `_clean_tex` (`src/tex2epub/preprocessor.py:445-453`): unwrap
`\textbf`/`\textit`/`\emph`, unwrap any remaining single-argument command,
delete brace characters, collapse whitespace runs to one space, strip. -/
def clean_tex (text : List Char) : List Char :=
  pyStrip (subE wsTry (subE braceTry (subE anyCmdTry
    (subE (oneArgTry emphHead) (subE (oneArgTry textitHead)
      (subE (oneArgTry textbfHead) text))))))

/-- Matcher for `HEAD(.+?)\}` under `re.DOTALL` (used for `\icmltitle{` and
`\title{`): the lazy group is the shortest nonempty text followed by `}`,
i.e. one character plus everything before the next `}`. -/
def lazyGroupTry (head : List Char) (s : List Char) : Option (List Char) :=
  if startsWith head s then
    match s.drop head.length with
    | c :: r2 =>
      match firstOcc [rb] r2 with
      | some k => some (c :: r2.take k)
      | none => none
    | [] => none
  else none

/-- Literal head of the `\icmltitle{(.+?)}` pattern. -/
def icmlHead : List Char := "\\icmltitle\x7b".data

/-- Literal head of the `\title{(.+?)}` pattern. -/
def titleHead : List Char := "\\title\x7b".data

/-- Literal head of the `\neurips.*?title\{(.+?)\}` pattern. -/
def neuripsHead : List Char := "\\neurips".data

/-- Backtracking of `.*?title\{(.+?)\}` after a `\neurips` head: try each
occurrence of `title{` left to right; at each, the lazy group needs one
character and a following `}`, otherwise the scan moves past that
occurrence.  Fuel (the remaining length) makes the recursion structural. -/
def neuripsTitleAux : Nat → List Char → Option (List Char)
  | 0, _ => none
  | fuel + 1, r =>
    match firstOcc "title\x7b".data r with
    | none => none
    | some k =>
      match r.drop (k + 6) with
      | c :: r3 =>
        match firstOcc [rb] r3 with
        | some j => some (c :: r3.take j)
        | none => neuripsTitleAux fuel (r.drop (k + 1))
      | [] => neuripsTitleAux fuel (r.drop (k + 1))

/-- Matcher for `\neurips.*?title\{(.+?)\}` under `re.DOTALL`. -/
def neuripsTry (s : List Char) : Option (List Char) :=
  if startsWith neuripsHead s then
    neuripsTitleAux s.length (s.drop neuripsHead.length)
  else none

/-- The title part of `_extract_metadata`
(`src/tex2epub/preprocessor.py:66-75`): try the ordered pattern list
`\icmltitle{(.+?)}`, `\neurips.*?title\{(.+?)\}`, `\title{(.+?)}`; on the
first match clean the captured group and stop; otherwise the title stays
empty. -/
def extract_title (content : List Char) : List Char :=
  match searchE (lazyGroupTry icmlHead) content with
  | some g => clean_tex g
  | none =>
    match searchE neuripsTry content with
    | some g => clean_tex g
    | none =>
      match searchE (lazyGroupTry titleHead) content with
      | some g => clean_tex g
      | none => []

/-- Claim C9: title extraction is first-match-wins with the dialect patterns
before the generic one — whenever the document contains a well-formed
`\icmltitle{t}` (no pattern occurrence earlier), the title is the cleaned
`t`, no matter what follows, in particular for any `\title{...}` present
later in the document. -/
theorem c9_extract_title_dialect_priority (pre t post : List Char)
    (hpre : cleanOf icmlHead pre = true) (ht : t ≠ []) (htrb : rb ∉ t) :
    extract_title (pre ++ icmlHead ++ t ++ [rb] ++ post) = clean_tex t := by
  have hassoc : pre ++ icmlHead ++ t ++ [rb] ++ post =
      pre ++ (icmlHead ++ (t ++ [rb] ++ post)) := by
    simp [List.append_assoc]
  have hsearch : searchE (lazyGroupTry icmlHead) (pre ++ icmlHead ++ t ++ [rb] ++ post) =
      some t := by
    rw [hassoc]
    rw [searchE_skip (fun i hi => by
      have hf := startsWith_drop_false_of_cleanOf hpre (icmlHead ++ (t ++ [rb] ++ post)) i hi
      unfold lazyGroupTry
      rw [if_neg (by
        simp only [List.append_assoc, List.singleton_append] at hf
        simp [hf])])]
    cases t with
    | nil => exact absurd rfl ht
    | cons c t' =>
      have hb : icmlHead ++ (c :: t' ++ [rb] ++ post) ≠ [] := by simp [icmlHead]
      obtain ⟨d, b', hdb⟩ : ∃ d b', icmlHead ++ (c :: t' ++ [rb] ++ post) = d :: b' := by
        cases hx : icmlHead ++ (c :: t' ++ [rb] ++ post) with
        | nil => exact absurd hx hb
        | cons d b' => exact ⟨d, b', rfl⟩
      rw [hdb]
      refine searchE_cons_some ?_
      rw [← hdb]
      unfold lazyGroupTry
      rw [if_pos (startsWith_append icmlHead _)]
      rw [List.drop_left icmlHead _]
      have hshape : c :: t' ++ [rb] ++ post = c :: (t' ++ [rb] ++ post) := by simp
      rw [hshape]
      have hocc : firstOcc [rb] (t' ++ [rb] ++ post) = some t'.length := by
        refine firstOcc_at_junction ?_ post
        exact cleanOf_single_of_not_mem (fun hc => htrb (List.mem_cons_of_mem c hc))
      change (match firstOcc [rb] (t' ++ [rb] ++ post) with
        | some k => some (c :: (t' ++ [rb] ++ post).take k)
        | none => none) = some (c :: t')
      rw [hocc]
      change some (c :: List.take t'.length (t' ++ [rb] ++ post)) = some (c :: t')
      have htake : (t' ++ [rb] ++ post).take t'.length = t' := by
        rw [List.append_assoc, List.take_left t' _]
      rw [htake]
  unfold extract_title
  rw [hsearch]

/-- Witness for C9: a document containing `\icmltitle{Foo}` and no generic
title before it yields title `Foo`, even with a later `\title{Bar}`. -/
theorem c9_witness :
    extract_title "x \\icmltitle\x7bFoo\x7d \\title\x7bBar\x7d".data = "Foo".data := by
  have h := c9_extract_title_dialect_priority "x ".data "Foo".data " \\title\x7bBar\x7d".data
    (by decide) (by decide) (by decide)
  have e1 : "x \\icmltitle\x7bFoo\x7d \\title\x7bBar\x7d".data =
      "x ".data ++ icmlHead ++ "Foo".data ++ [rb] ++ " \\title\x7bBar\x7d".data := by decide
  rw [e1, h]
  decide

/-- Whether a consumed chunk ends in a newline: after `re.sub` resumes past
a match, `^` (MULTILINE) holds exactly when the previous character is
`\n`. -/
def endsNl (t : List Char) : Bool := t.getLast? == some '\n'

/-- Fuelled scan loop of `re.sub` with MULTILINE `^`-anchored patterns: the
matcher also receives whether the current position is at a line start. -/
def subFA (f : Bool → List Char → Option (Nat × List Char)) :
    Nat → Bool → List Char → List Char
  | _, _, [] => []
  | 0, _, s => s
  | fuel + 1, ls, c :: cs =>
    match f ls (c :: cs) with
    | some (n, repl) =>
      if 1 ≤ n then repl ++ subFA f fuel (endsNl ((c :: cs).take n)) ((c :: cs).drop n)
      else c :: subFA f fuel (decide (c = '\n')) cs
    | none => c :: subFA f fuel (decide (c = '\n')) cs

/-- The scan loop of `re.sub` for a MULTILINE `^`-anchored pattern, started
at position 0 (where `^` holds). -/
def subEA (f : Bool → List Char → Option (Nat × List Char)) (ls : Bool) (s : List Char) :
    List Char :=
  subFA f s.length ls s

theorem subFA_fuel {f : Bool → List Char → Option (Nat × List Char)} :
    ∀ (fuel fuel' : Nat) (ls : Bool) (s : List Char), s.length ≤ fuel → s.length ≤ fuel' →
      subFA f fuel ls s = subFA f fuel' ls s := by
  intro fuel
  induction fuel with
  | zero =>
    intro fuel' ls s hs _
    have : s = [] := List.length_eq_zero.mp (Nat.le_zero.mp hs)
    subst this
    cases fuel' <;> rfl
  | succ fuel ih =>
    intro fuel' ls s hs hs'
    cases s with
    | nil => cases fuel' <;> rfl
    | cons c cs =>
      cases fuel' with
      | zero => simp at hs'
      | succ fuel'' =>
        show (match f ls (c :: cs) with
          | some (n, repl) =>
            if 1 ≤ n then repl ++ subFA f fuel (endsNl ((c :: cs).take n)) ((c :: cs).drop n)
            else c :: subFA f fuel (decide (c = '\n')) cs
          | none => c :: subFA f fuel (decide (c = '\n')) cs) = (match f ls (c :: cs) with
          | some (n, repl) =>
            if 1 ≤ n then repl ++ subFA f fuel'' (endsNl ((c :: cs).take n)) ((c :: cs).drop n)
            else c :: subFA f fuel'' (decide (c = '\n')) cs
          | none => c :: subFA f fuel'' (decide (c = '\n')) cs)
        have hcs : cs.length ≤ fuel := by simpa using hs
        have hcs' : cs.length ≤ fuel'' := by simpa using hs'
        cases hm : f ls (c :: cs) with
        | none => rw [ih fuel'' _ cs hcs hcs']
        | some p =>
          obtain ⟨n, repl⟩ := p
          by_cases hn : 1 ≤ n
          · have hd : ((c :: cs).drop n).length ≤ fuel := by
              simp only [List.length_drop, List.length_cons]
              omega
            have hd' : ((c :: cs).drop n).length ≤ fuel'' := by
              simp only [List.length_drop, List.length_cons]
              omega
            simp only [if_pos hn, ih fuel'' _ _ hd hd']
          · simp only [if_neg hn, ih fuel'' _ cs hcs hcs']

theorem subEA_cons_none {f : Bool → List Char → Option (Nat × List Char)} {ls : Bool}
    {c : Char} {cs : List Char} (h : f ls (c :: cs) = none) :
    subEA f ls (c :: cs) = c :: subEA f (decide (c = '\n')) cs := by
  show (match f ls (c :: cs) with
    | some (n, repl) =>
      if 1 ≤ n then repl ++ subFA f cs.length (endsNl ((c :: cs).take n)) ((c :: cs).drop n)
      else c :: subFA f cs.length (decide (c = '\n')) cs
    | none => c :: subFA f cs.length (decide (c = '\n')) cs) = _
  rw [h]
  rfl

theorem subEA_cons_some {f : Bool → List Char → Option (Nat × List Char)} {ls : Bool}
    {c : Char} {cs : List Char} {n : Nat} {repl : List Char}
    (h : f ls (c :: cs) = some (n, repl)) (hn : 1 ≤ n) :
    subEA f ls (c :: cs) = repl ++ subEA f (endsNl ((c :: cs).take n)) ((c :: cs).drop n) := by
  show (match f ls (c :: cs) with
    | some (n, repl) =>
      if 1 ≤ n then repl ++ subFA f cs.length (endsNl ((c :: cs).take n)) ((c :: cs).drop n)
      else c :: subFA f cs.length (decide (c = '\n')) cs
    | none => c :: subFA f cs.length (decide (c = '\n')) cs) = _
  rw [h]
  simp only [if_pos hn]
  rw [subFA_fuel cs.length ((c :: cs).drop n).length _ _
    (by simp only [List.length_drop, List.length_cons]; omega) (le_refl _)]
  rfl

/-- The opening token of the two-column wrapper, the literal regex
`\\twocolumn\[` (`src/tex2epub/preprocessor.py:186`). -/
def twocolOpen : List Char := "\\twocolumn[".data

/-- Matcher for `re.sub(r"^\]\s*$", "", content, flags=re.MULTILINE)`
(`src/tex2epub/preprocessor.py:188`).  At a line start with a `]`, the
greedy `\s*` takes the maximal whitespace run and `$` backtracks it to the
largest stop that sits at end-of-text or just before a `\n`; if no such
stop exists there is no match. -/
def brTry : Bool → List Char → Option (Nat × List Char)
  | _, [] => none
  | ls, c :: rest =>
    if ls = true ∧ c = ']' then
      if rest.drop (spanLen isPySpace rest) = [] then some (1 + spanLen isPySpace rest, [])
      else
        match firstOcc ['\n'] ((rest.take (spanLen isPySpace rest)).reverse) with
        | some kr => some (1 + (spanLen isPySpace rest - 1 - kr), [])
        | none => none
    else none

/-- The two-column–wrapper removal step of `_strip_conference_commands`
(`src/tex2epub/preprocessor.py:184-188`): delete every `\twocolumn[` token,
then delete every line-initial `]` (with the whitespace the `\s*$` of the
pattern consumes). -/
def strip_twocolumn (content : List Char) : List Char :=
  subEA brTry true (pyReplace twocolOpen [] content)

/-- No position of `s` (scanned with initial line-start flag `ls`) has a
line-initial `]`; on such text the second removal pass is the identity. -/
def noLineBracket : Bool → List Char → Bool
  | _, [] => true
  | ls, c :: rest => !(ls && decide (c = ']')) && noLineBracket (decide (c = '\n')) rest

theorem brTry_none_of_flag {ls : Bool} {c : Char} {cs : List Char}
    (h : (ls && decide (c = ']')) = false) : brTry ls (c :: cs) = none := by
  rw [brTry]
  rw [if_neg]
  rintro ⟨h1, h2⟩
  rw [h1, h2] at h
  simp at h

theorem brSub_id : ∀ {s : List Char} {ls : Bool},
    noLineBracket ls s = true → subEA brTry ls s = s := by
  intro s
  induction s with
  | nil => intro ls _; rfl
  | cons c cs ih =>
    intro ls h
    unfold noLineBracket at h
    simp only [Bool.and_eq_true] at h
    have hflag : (ls && decide (c = ']')) = false := by
      cases hx : (ls && decide (c = ']')) with
      | false => rfl
      | true =>
        have h1 := h.1
        rw [hx] at h1
        simp at h1
    rw [subEA_cons_none (brTry_none_of_flag hflag)]
    rw [ih h.2]

theorem brSub_skip : ∀ {a : List Char} {ls : Bool} {b : List Char},
    noLineBracket ls a = true →
      subEA brTry ls (a ++ b) =
        a ++ subEA brTry (match a.getLast? with
          | none => ls
          | some c => decide (c = '\n')) b := by
  intro a
  induction a with
  | nil => intro ls b _; rfl
  | cons c a' ih =>
    intro ls b h
    unfold noLineBracket at h
    simp only [Bool.and_eq_true] at h
    have hflag : (ls && decide (c = ']')) = false := by
      cases hx : (ls && decide (c = ']')) with
      | false => rfl
      | true =>
        have h1 := h.1
        rw [hx] at h1
        simp at h1
    show subEA brTry ls (c :: (a' ++ b)) = _
    rw [subEA_cons_none (brTry_none_of_flag hflag)]
    rw [ih h.2]
    cases a' with
    | nil => rfl
    | cons d a'' => rfl

/-- Counterexample for C5 as stated: a document with no two-column wrapper
at all still loses text in this step — its standalone `]` line is deleted. -/
theorem c5_counterexample :
    hasOcc twocolOpen "A\n]\nB".data = false ∧
    strip_twocolumn "A\n]\nB".data ≠ "A\n]\nB".data := by
  constructor
  · decide
  · decide

/-- Claim C5 (amended): the two-column–wrapper step deletes every
occurrence of the opening token and every closing bracket standing alone at
the start of a line — matching or not — and nothing else: on a document
with one wrapper whose bracket closes on its own line (and no other
line-initial brackets), exactly the opening token and the bracket are
removed, all other text byte-for-byte preserved. -/
theorem c5_strip_twocolumn_amended (pre mid post' : List Char) (q : Char)
    (hpre : cleanOf twocolOpen pre = true)
    (hrest : cleanOf twocolOpen (mid ++ "\n]\n".data ++ q :: post') = true)
    (hA : noLineBracket true (pre ++ mid ++ "\n".data) = true)
    (hq : isPySpace q = false)
    (hpost : noLineBracket true (q :: post') = true) :
    strip_twocolumn (pre ++ twocolOpen ++ mid ++ "\n]\n".data ++ q :: post') =
      pre ++ mid ++ "\n\n".data ++ q :: post' := by
  have hX : pre ++ twocolOpen ++ mid ++ "\n]\n".data ++ q :: post' =
      pre ++ (twocolOpen ++ (mid ++ "\n]\n".data ++ q :: post')) := by
    simp [List.append_assoc]
  have hpass1 : pyReplace twocolOpen []
      (pre ++ twocolOpen ++ mid ++ "\n]\n".data ++ q :: post') =
      pre ++ (mid ++ "\n]\n".data ++ q :: post') := by
    rw [hX]
    unfold pyReplace
    rw [subE_splice
      (fun i hi => litTry_none_of_not_starts (startsWith_drop_false_of_cleanOf hpre _ i hi))
      (litTry_some_of_starts (by decide) (startsWith_append twocolOpen _))
      (by decide) (by simp [twocolOpen])]
    rw [List.drop_left twocolOpen _]
    rw [subE_no_match (fun i hi => litTry_none_of_not_starts
      (firstOcc_none_spec (firstOcc_none_of_cleanOf (by decide) hrest) i))]
    simp
  unfold strip_twocolumn
  rw [hpass1]
  have hgroup : pre ++ (mid ++ "\n]\n".data ++ q :: post') =
      (pre ++ mid ++ "\n".data) ++ (']' :: '\n' :: q :: post') := by
    simp [List.append_assoc]
  rw [hgroup]
  rw [brSub_skip hA]
  have hlast : (pre ++ mid ++ "\n".data).getLast? = some '\n' := by
    show ((pre ++ mid) ++ ['\n']).getLast? = some '\n'
    exact List.getLast?_concat _
  have hflagA : (match (pre ++ mid ++ "\n".data).getLast? with
      | none => true
      | some c => decide (c = '\n')) = true := by
    rw [hlast]
    rfl
  rw [hflagA]
  have hw : spanLen isPySpace ('\n' :: q :: post') = 1 := by
    show (if isPySpace '\n' then spanLen isPySpace (q :: post') + 1 else 0) = 1
    rw [if_pos (by decide)]
    show (if isPySpace q then spanLen isPySpace post' + 1 else 0) + 1 = 1
    rw [if_neg (by simp [hq])]
  have hbr : brTry true (']' :: '\n' :: q :: post') = some (1, []) := by
    rw [brTry, if_pos ⟨rfl, rfl⟩, hw]
    rw [if_neg (by simp)]
    rfl
  rw [subEA_cons_some hbr (by decide)]
  have hd1 : ((']' :: '\n' :: q :: post').drop 1) = '\n' :: q :: post' := rfl
  have ht1 : endsNl ((']' :: '\n' :: q :: post').take 1) = false := rfl
  rw [hd1, ht1]
  rw [subEA_cons_none (brTry_none_of_flag (by simp))]
  rw [brSub_id (by simpa using hpost)]
  simp [List.append_assoc]

/-- Witness for C5's amended statement: one wrapper with its bracket alone
on a line — exactly the token and the bracket disappear. -/
theorem c5_witness :
    strip_twocolumn "T \\twocolumn[M\n]\nQ!".data = "T M\n\nQ!".data := by
  have h := c5_strip_twocolumn_amended "T ".data "M".data "!".data 'Q'
    (by decide) (by decide) (by decide) (by decide) (by decide)
  have e1 : "T \\twocolumn[M\n]\nQ!".data =
      "T ".data ++ twocolOpen ++ "M".data ++ "\n]\n".data ++ 'Q' :: "!".data := by decide
  have e2 : "T M\n\nQ!".data =
      "T ".data ++ "M".data ++ "\n\n".data ++ 'Q' :: "!".data := by decide
  rw [e1, e2, h]

theorem agreeUpTo_false_extend {pat a : List Char} (h : agreeUpTo pat a = false)
    (b : List Char) : agreeUpTo pat (a ++ b) = false := by
  induction pat generalizing a with
  | nil => simp [agreeUpTo] at h
  | cons p ps ih =>
    cases a with
    | nil => simp [agreeUpTo] at h
    | cons c cs =>
      simp only [agreeUpTo, Bool.and_eq_false_iff] at h
      rcases h with h | h
      · show agreeUpTo (p :: ps) (c :: (cs ++ b)) = false
        simp [agreeUpTo, h]
      · show agreeUpTo (p :: ps) (c :: (cs ++ b)) = false
        simp only [agreeUpTo, Bool.and_eq_false_iff]
        right
        exact ih h

theorem cleanOf_intro {pat s : List Char}
    (h : ∀ i, i < s.length → agreeUpTo pat (s.drop i) = false) : cleanOf pat s = true := by
  unfold cleanOf
  refine List.all_eq_true.mpr ?_
  intro i hi
  simp [h i (List.mem_range.mp hi)]

theorem cleanOf_append {pat a b : List Char} (ha : cleanOf pat a = true)
    (hb : cleanOf pat b = true) : cleanOf pat (a ++ b) = true := by
  refine cleanOf_intro ?_
  intro i hi
  by_cases hia : i < a.length
  · rw [List.drop_append_of_le_length (by omega)]
    exact agreeUpTo_false_extend (cleanOf_spec ha i hia) b
  · have : i = a.length + (i - a.length) := by omega
    rw [this, List.drop_append]
    refine cleanOf_spec hb _ ?_
    simp only [List.length_append] at hi
    omega

theorem cleanOf_nil (pat : List Char) : cleanOf pat [] = true := rfl

/-- The metadata record (`PaperMetadata`, `src/tex2epub/preprocessor.py:12-17`). -/
structure PaperMetadata where
  title : List Char := []
  authors : List (List Char) := []
  abstract : List Char := []
  date : List Char := []
deriving DecidableEq

/-- The document-begin marker. -/
def beginMarker : List Char := "\\begin\x7bdocument\x7d".data

/-- The document-end marker. -/
def endMarker : List Char := "\\end\x7bdocument\x7d".data

/-- Matcher for `re.search(r"\\begin\{document\}(.*?)\\end\{document\}",
content, re.DOTALL)`: at a begin marker, the lazy group reaches to the first
subsequent end marker (if none follows, this start position fails). -/
def docBodyTry (s : List Char) : Option (List Char) :=
  if startsWith beginMarker s then
    (firstOcc endMarker (s.drop beginMarker.length)).map
      (fun k => (s.drop beginMarker.length).take k)
  else none

/-- The fixed preamble of `_rebuild_document`
(`src/tex2epub/preprocessor.py:421-427`). -/
def fixedPreamble : List Char :=
  ("\\documentclass\x7barticle\x7d\n\\usepackage\x7bamsmath\x7d\n" ++
   "\\usepackage\x7bamssymb\x7d\n\\usepackage\x7bgraphicx\x7d\n" ++
   "\\usepackage\x7bhyperref\x7d\n\\usepackage\x7bbooktabs\x7d\n").data

/-- The `" \\and "` separator joining authors. -/
def andSep : List Char := " \\and ".data

/-- `_rebuild_document` (`src/tex2epub/preprocessor.py:411-442`): take the
body between the document markers (the whole buffer when the search fails),
and wrap it in the fixed preamble, optional title/author lines, the begin
marker, an optional `\maketitle`, and the end marker. -/
def rebuild_document (content : List Char) (meta : PaperMetadata) : List Char :=
  (fixedPreamble
    ++ (if meta.title ≠ [] then "\\title\x7b".data ++ meta.title ++ "\x7d\n".data else [])
    ++ (if meta.authors ≠ [] then
          "\\author\x7b".data ++ List.intercalate andSep meta.authors ++ "\x7d\n".data
        else []))
  ++ "\n".data ++ beginMarker ++ "\n".data
  ++ (if meta.title ≠ [] then "\\maketitle\n".data else [])
  ++ (searchE docBodyTry content).getD content
  ++ "\n".data ++ endMarker ++ "\n".data

set_option maxRecDepth 4000 in
/-- Counterexample for C4 as stated: an input consisting of a bare end
marker (unbalanced markers, so the whole buffer becomes the body) rebuilds
to a document with two end markers — not well-formed. -/
theorem c4_counterexample :
    occCount beginMarker (rebuild_document "\\end\x7bdocument\x7d".data ⟨[], [], [], []⟩) = 1 ∧
    occCount endMarker (rebuild_document "\\end\x7bdocument\x7d".data ⟨[], [], [], []⟩) = 2 := by
  constructor
  · decide
  · decide

theorem occCount_layout {pat P T A M body : List Char} (hne : pat ≠ [])
    (hP : selfContained pat P = true) (hT : selfContained pat T = true)
    (hA : selfContained pat A = true)
    (hNL : selfContained pat "\n".data = true)
    (hBM : selfContained pat beginMarker = true)
    (hM : selfContained pat M = true)
    (hbody : selfContained pat body = true)
    (hEM : selfContained pat endMarker = true) :
    occCount pat (P ++ (T ++ (A ++ ("\n".data ++ (beginMarker ++ ("\n".data ++ (M ++
        (body ++ ("\n".data ++ (endMarker ++ "\n".data)))))))))) =
      occCount pat P + (occCount pat T + (occCount pat A + (occCount pat "\n".data +
        (occCount pat beginMarker + (occCount pat "\n".data + (occCount pat M +
          (occCount pat body + (occCount pat "\n".data + (occCount pat endMarker +
            occCount pat "\n".data))))))))) := by
  rw [occCount_append hne hP, occCount_append hne hT, occCount_append hne hA,
      occCount_append hne hNL, occCount_append hne hBM, occCount_append hne hNL,
      occCount_append hne hM, occCount_append hne hbody, occCount_append hne hNL,
      occCount_append hne hEM]

set_option maxRecDepth 4000 in
/-- Claim C4 (amended): the rebuilt document contains exactly one begin
marker preceding exactly one end marker, provided the extracted body and the
rendered metadata (title text, joined author text) contain no marker text —
not even a partial marker prefix at their boundary.  For inputs whose
stray/unbalanced markers survive into the extracted body, the guarantee
fails (see the counterexample). -/
theorem c4_rebuild_document_wellformed (content : List Char) (meta : PaperMetadata)
    (hb1 : cleanOf beginMarker ((searchE docBodyTry content).getD content) = true)
    (hb2 : cleanOf endMarker ((searchE docBodyTry content).getD content) = true)
    (ht1 : cleanOf beginMarker meta.title = true)
    (ht2 : cleanOf endMarker meta.title = true)
    (ha1 : cleanOf beginMarker (List.intercalate andSep meta.authors) = true)
    (ha2 : cleanOf endMarker (List.intercalate andSep meta.authors) = true) :
    occCount beginMarker (rebuild_document content meta) = 1 ∧
    occCount endMarker (rebuild_document content meta) = 1 ∧
    ∃ x y z, rebuild_document content meta = x ++ beginMarker ++ y ++ endMarker ++ z := by
  have hshape : rebuild_document content meta =
      fixedPreamble ++
        ((if meta.title ≠ [] then "\\title\x7b".data ++ meta.title ++ "\x7d\n".data else []) ++
          ((if meta.authors ≠ [] then
              "\\author\x7b".data ++ List.intercalate andSep meta.authors ++ "\x7d\n".data
            else []) ++
            ("\n".data ++ (beginMarker ++ ("\n".data ++
              ((if meta.title ≠ [] then "\\maketitle\n".data else []) ++
                (((searchE docBodyTry content).getD content) ++
                  ("\n".data ++ (endMarker ++ "\n".data))))))))) := by
    unfold rebuild_document
    simp [List.append_assoc]
  have hTsc : ∀ pat : List Char, cleanOf pat meta.title = true →
      cleanOf pat "\\title\x7b".data = true → cleanOf pat "\x7d\n".data = true →
      selfContained pat
        (if meta.title ≠ [] then "\\title\x7b".data ++ meta.title ++ "\x7d\n".data else []) =
          true := by
    intro pat hpt hk1 hk2
    split
    · exact selfContained_of_cleanOf (cleanOf_append (cleanOf_append hk1 hpt) hk2)
    · rfl
  have hAsc : ∀ pat : List Char, cleanOf pat (List.intercalate andSep meta.authors) = true →
      cleanOf pat "\\author\x7b".data = true → cleanOf pat "\x7d\n".data = true →
      selfContained pat
        (if meta.authors ≠ [] then
          "\\author\x7b".data ++ List.intercalate andSep meta.authors ++ "\x7d\n".data
        else []) = true := by
    intro pat hpa hk1 hk2
    split
    · exact selfContained_of_cleanOf (cleanOf_append (cleanOf_append hk1 hpa) hk2)
    · rfl
  have hTct : ∀ pat : List Char, cleanOf pat meta.title = true →
      cleanOf pat "\\title\x7b".data = true → cleanOf pat "\x7d\n".data = true → pat ≠ [] →
      occCount pat
        (if meta.title ≠ [] then "\\title\x7b".data ++ meta.title ++ "\x7d\n".data else []) =
          0 := by
    intro pat hpt hk1 hk2 hne
    split
    · exact occCount_eq_zero_of_cleanOf hne (cleanOf_append (cleanOf_append hk1 hpt) hk2)
    · cases pat with
      | nil => exact absurd rfl hne
      | cons p ps => simp [occCount, startsWith]
  have hAct : ∀ pat : List Char, cleanOf pat (List.intercalate andSep meta.authors) = true →
      cleanOf pat "\\author\x7b".data = true → cleanOf pat "\x7d\n".data = true → pat ≠ [] →
      occCount pat
        (if meta.authors ≠ [] then
          "\\author\x7b".data ++ List.intercalate andSep meta.authors ++ "\x7d\n".data
        else []) = 0 := by
    intro pat hpa hk1 hk2 hne
    split
    · exact occCount_eq_zero_of_cleanOf hne (cleanOf_append (cleanOf_append hk1 hpa) hk2)
    · cases pat with
      | nil => exact absurd rfl hne
      | cons p ps => simp [occCount, startsWith]
  have hMsc : ∀ pat : List Char, cleanOf pat "\\maketitle\n".data = true →
      selfContained pat (if meta.title ≠ [] then "\\maketitle\n".data else []) = true := by
    intro pat hmk
    split
    · exact selfContained_of_cleanOf hmk
    · rfl
  have hMct : ∀ pat : List Char, cleanOf pat "\\maketitle\n".data = true → pat ≠ [] →
      occCount pat (if meta.title ≠ [] then "\\maketitle\n".data else []) = 0 := by
    intro pat hmk hne
    split
    · exact occCount_eq_zero_of_cleanOf hne hmk
    · cases pat with
      | nil => exact absurd rfl hne
      | cons p ps => simp [occCount, startsWith]
  refine ⟨?_, ?_, ?_⟩
  · rw [hshape]
    rw [occCount_layout (by decide) (by decide)
      (hTsc beginMarker ht1 (by decide) (by decide))
      (hAsc beginMarker ha1 (by decide) (by decide))
      (by decide) (by decide)
      (hMsc beginMarker (by decide))
      (selfContained_of_cleanOf hb1) (by decide)]
    rw [hTct beginMarker ht1 (by decide) (by decide) (by decide),
        hAct beginMarker ha1 (by decide) (by decide) (by decide),
        hMct beginMarker (by decide) (by decide),
        occCount_eq_zero_of_cleanOf (by decide) hb1]
    decide
  · rw [hshape]
    rw [occCount_layout (by decide) (by decide)
      (hTsc endMarker ht2 (by decide) (by decide))
      (hAsc endMarker ha2 (by decide) (by decide))
      (by decide) (by decide)
      (hMsc endMarker (by decide))
      (selfContained_of_cleanOf hb2) (by decide)]
    rw [hTct endMarker ht2 (by decide) (by decide) (by decide),
        hAct endMarker ha2 (by decide) (by decide) (by decide),
        hMct endMarker (by decide) (by decide),
        occCount_eq_zero_of_cleanOf (by decide) hb2]
    decide
  · refine ⟨fixedPreamble ++
      ((if meta.title ≠ [] then "\\title\x7b".data ++ meta.title ++ "\x7d\n".data else []) ++
        ((if meta.authors ≠ [] then
            "\\author\x7b".data ++ List.intercalate andSep meta.authors ++ "\x7d\n".data
          else []) ++ "\n".data)),
      "\n".data ++ ((if meta.title ≠ [] then "\\maketitle\n".data else []) ++
        (((searchE docBodyTry content).getD content) ++ "\n".data)),
      "\n".data, ?_⟩
    rw [hshape]
    simp [List.append_assoc]

set_option maxRecDepth 8000 in
/-- Witness for C4's amended statement: a document with one balanced marker
pair, a title and two authors rebuilds to exactly one begin and one end
marker. -/
theorem c4_witness :
    occCount beginMarker
      (rebuild_document "x\\begin\x7bdocument\x7dBODY\\end\x7bdocument\x7dy".data
        ⟨"T".data, ["A".data, "B".data], [], []⟩) = 1 ∧
    occCount endMarker
      (rebuild_document "x\\begin\x7bdocument\x7dBODY\\end\x7bdocument\x7dy".data
        ⟨"T".data, ["A".data, "B".data], [], []⟩) = 1 := by
  have h := c4_rebuild_document_wellformed
    "x\\begin\x7bdocument\x7dBODY\\end\x7bdocument\x7dy".data
    ⟨"T".data, ["A".data, "B".data], [], []⟩
    (by decide) (by decide) (by decide) (by decide) (by decide) (by decide)
  exact ⟨h.1, h.2.1⟩

/-- Result of a Python function that may raise: the normal return value or
an exception (with a short description). -/
inductive Res where
  | ok : List Char → Res
  | err : List Char → Res
deriving DecidableEq

/-- Non-brace character class `[^{}]`. -/
def nonBrace (c : Char) : Bool := !(c = lb || c = rb)

/-- Octal digit. -/
def isOctal (c : Char) : Bool := '0' ≤ c && c ≤ '7'

/-- Fuelled template expansion of Python `re.sub`'s replacement-string
processing (`re._parser.parse_template`): `\\`→`\`, the known ASCII escapes
`\a \b \f \n \r \t \v` become control characters, `\0` starts an octal
escape, `\1`–`\9` are group references (the occurrence pattern has no
groups, so substitution raises — modelled as `none`), any other letter
escape raises `bad escape`, any other escaped character is kept as the two
characters, and a trailing lone backslash raises. -/
def expandTplF : Nat → List Char → Option (List Char)
  | _, [] => some []
  | 0, _ :: _ => none
  | fuel + 1, c :: rest =>
    if c = bs then
      match rest with
      | [] => none
      | d :: r2 =>
        if d = bs then (expandTplF fuel r2).map (bs :: ·)
        else if d = 'a' then (expandTplF fuel r2).map (Char.ofNat 7 :: ·)
        else if d = 'b' then (expandTplF fuel r2).map (Char.ofNat 8 :: ·)
        else if d = 'f' then (expandTplF fuel r2).map (Char.ofNat 12 :: ·)
        else if d = 'n' then (expandTplF fuel r2).map ('\n' :: ·)
        else if d = 'r' then (expandTplF fuel r2).map ('\r' :: ·)
        else if d = 't' then (expandTplF fuel r2).map ('\t' :: ·)
        else if d = 'v' then (expandTplF fuel r2).map (Char.ofNat 11 :: ·)
        else if d = '0' then
          match r2 with
          | e :: r3 =>
            if isOctal e then
              match r3 with
              | f :: r4 =>
                if isOctal f then
                  (expandTplF fuel r4).map (Char.ofNat (8 * (e.toNat - 48) + (f.toNat - 48)) :: ·)
                else (expandTplF fuel r3).map (Char.ofNat (e.toNat - 48) :: ·)
              | [] => (expandTplF fuel r3).map (Char.ofNat (e.toNat - 48) :: ·)
            else (expandTplF fuel r2).map (Char.ofNat 0 :: ·)
          | [] => (expandTplF fuel r2).map (Char.ofNat 0 :: ·)
        else if isTexDigit d then none
        else if isTexLetter d then none
        else (expandTplF fuel r2).map (fun t => bs :: d :: t)
    else (expandTplF fuel rest).map (c :: ·)

/-- Template expansion of a replacement string. -/
def expandTpl (s : List Char) : Option (List Char) := expandTplF s.length s

/-- Fuelled consumption of the group-2 regex `[^{}]*(?:\{[^{}]*\}[^{}]*)*`:
the greedy star keeps absorbing non-brace runs and one-level `{...}` groups
and stops before a `{` with no simple close (or before a `}`/the end);
this is where the regex's backtracking necessarily stops, since the
enclosing pattern then requires a literal `}`. -/
def parseG2F : Nat → List Char → Nat
  | 0, _ => 0
  | fuel + 1, s =>
    match s.drop (spanLen nonBrace s) with
    | c :: r1 =>
      if c = lb then
        match r1.drop (spanLen nonBrace r1) with
        | d :: r2 =>
          if d = rb then
            spanLen nonBrace s + 1 + spanLen nonBrace r1 + 1 + parseG2F fuel r2
          else spanLen nonBrace s
        | [] => spanLen nonBrace s
      else spanLen nonBrace s
    | [] => spanLen nonBrace s

/-- Characters consumed by the group-2 regex. -/
def parseG2 (s : List Char) : Nat := parseG2F s.length s

/-- Literal head `\newcommand{` of the definition regexes: the alternation
`(?:new|renew)` tries `new` first, but the two branches differ in their
first character, so matching each head literally is equivalent. -/
def defHead1 : List Char := "\\newcommand\x7b".data

/-- Literal head `\renewcommand{`. -/
def defHead2 : List Char := "\\renewcommand\x7b".data

/-- The closing `\}` after group 2 of the definition-finder regex (`pfx` is
the length consumed so far, `cmd` the captured command name, `grp` the
captured replacement text). -/
def defFindEnd (pfx : Nat) (cmd : List Char) (g2len : Nat) (grp : List Char) :
    List Char → Option (Nat × (List Char × List Char))
  | [] => none
  | f :: _ => if f = rb then some (pfx + g2len + 1, (cmd, grp)) else none

/-- The `\{` opening group 2 of the definition-finder regex. -/
def defFindGroup2 (pfx : Nat) (cmd : List Char) :
    List Char → Option (Nat × (List Char × List Char))
  | [] => none
  | e :: r3 =>
    if e = lb then
      defFindEnd (pfx + 1) cmd (parseG2 r3) (r3.take (parseG2 r3)) (r3.drop (parseG2 r3))
    else none

/-- Tail of the definition-finder regex after the captured command name: the
closing `\}` of group 1. -/
def defFindClose (pfx : Nat) (cmd : List Char) :
    List Char → Option (Nat × (List Char × List Char))
  | [] => none
  | d :: r2 => if d = rb then defFindGroup2 (pfx + 1) cmd r2 else none

/-- Group 1 of the definition-finder regex: `\\[a-zA-Z]+` then the closing
brace (greedy letters, deterministic since a shorter run leaves a letter
where `\}` must match). -/
def defFindAfterHead (hl : Nat) : List Char → Option (Nat × (List Char × List Char))
  | [] => none
  | c :: r1 =>
    if c = bs then
      if 1 ≤ spanLen isTexLetter r1 then
        defFindClose (hl + 1 + spanLen isTexLetter r1)
          (bs :: r1.take (spanLen isTexLetter r1)) (r1.drop (spanLen isTexLetter r1))
      else none
    else none

/-- Matcher for the definition-finder regex
`\\(?:new|renew)command\{(\\[a-zA-Z]+)\}\{([^{}]*(?:\{[^{}]*\}[^{}]*)*)\}`
(`src/tex2epub/preprocessor.py:279-281`): the match data is the consumed
length and the pair (command name, replacement text).  The alternation
`(?:new|renew)` tries `new` first, but the branches differ in their first
character, so matching each full head literally is equivalent. -/
def defFindTry (s : List Char) : Option (Nat × (List Char × List Char)) :=
  if startsWith defHead1 s then defFindAfterHead defHead1.length (s.drop defHead1.length)
  else if startsWith defHead2 s then defFindAfterHead defHead2.length (s.drop defHead2.length)
  else none

/-- The closing `\}` and trailing whitespace of the removal regex; the
trailing `\s*\n?` is the maximal whitespace run, `\n` being whitespace. -/
def defRemoveEnd (pfx : Nat) (g2len : Nat) : List Char → Option (Nat × List Char)
  | [] => none
  | f :: r4 =>
    if f = rb then some (pfx + g2len + 1 + spanLen isPySpace r4, []) else none

/-- Group 2 of the removal regex. -/
def defRemoveG2 (pfx : Nat) : List Char → Option (Nat × List Char)
  | [] => none
  | e :: r3 =>
    if e = lb then defRemoveEnd (pfx + 1) (parseG2 r3) (r3.drop (parseG2 r3))
    else none

/-- The optional `(?:\[\d+\])?` of the removal regex: taken when a full
`[digits]` is present, otherwise matched empty. -/
def defRemoveOpt (pfx : Nat) : List Char → Option (Nat × List Char)
  | [] => none
  | d :: r2 =>
    if d = '[' then
      if 1 ≤ spanLen isTexDigit r2 then
        match r2.drop (spanLen isTexDigit r2) with
        | ']' :: r2' => defRemoveG2 (pfx + 1 + spanLen isTexDigit r2 + 1) r2'
        | _ => defRemoveG2 pfx (d :: r2)
      else defRemoveG2 pfx (d :: r2)
    else defRemoveG2 pfx (d :: r2)

/-- Tail of the removal regex after the command name: the closing `\}` of
group 1. -/
def defRemoveClose (pfx : Nat) : List Char → Option (Nat × List Char)
  | [] => none
  | d :: r2 => if d = rb then defRemoveOpt (pfx + 1) r2 else none

/-- Group 1 of the removal regex. -/
def defRemoveAfterHead (hl : Nat) : List Char → Option (Nat × List Char)
  | [] => none
  | c :: r1 =>
    if c = bs then
      if 1 ≤ spanLen isTexLetter r1 then
        defRemoveClose (hl + 1 + spanLen isTexLetter r1) (r1.drop (spanLen isTexLetter r1))
      else none
    else none

/-- Matcher for the definition-removal regex
`\\(?:new|renew)command\{\\[a-zA-Z]+\}(?:\[\d+\])?\{[^{}]*(?:\{[^{}]*\}[^{}]*)*\}\s*\n?`
(`src/tex2epub/preprocessor.py:290-294`), with empty replacement. -/
def defRemoveTry (s : List Char) : Option (Nat × List Char) :=
  if startsWith defHead1 s then defRemoveAfterHead defHead1.length (s.drop defHead1.length)
  else if startsWith defHead2 s then defRemoveAfterHead defHead2.length (s.drop defHead2.length)
  else none

/-- Whether a command occurrence is followed by a non-letter (the negative
lookahead `(?![a-zA-Z])`). -/
def nextNotLetter : List Char → Bool
  | [] => true
  | c :: _ => !(isTexLetter c)

/-- Matcher for one macro occurrence `re.escape(cmd) + r"(?![a-zA-Z])"`
with (already template-expanded) replacement `rtext`
(`src/tex2epub/preprocessor.py:297-300`). -/
def cmdTry (cmd rtext : List Char) (s : List Char) : Option (Nat × List Char) :=
  if startsWith cmd s = true ∧ nextNotLetter (s.drop cmd.length) = true then
    some (cmd.length, rtext)
  else none

/-- The annotation command names of the two cleanup regexes
(`src/tex2epub/preprocessor.py:304-305`). -/
def annotNames : List (List Char) :=
  ["todo".data, "davide".data, "sasha".data, "joel".data, "logan".data,
   "wil".data, "vezhnick".data]

/-- First alternation branch whose name matches (the names differ in their
first letters, so alternation order does not matter here). -/
def pickName : List (List Char) → List Char → Option Nat
  | [], _ => none
  | n :: ns, r => if startsWith n r then some n.length else pickName ns r

/-- Matcher for `\\(?:todo|davide|sasha|joel|logan|wil|vezhnick)\{[^}]*\}`
with empty replacement. -/
def annotTry1 (s : List Char) : Option (Nat × List Char) :=
  match s with
  | [] => none
  | c :: r =>
    if c = bs then
      match pickName annotNames r with
      | some nl =>
        match r.drop nl with
        | d :: r2 =>
          if d = lb then
            match r2.drop (spanLen (fun c => !(c = rb)) r2) with
            | e :: _ =>
              if e = rb then some (1 + nl + 1 + spanLen (fun c => !(c = rb)) r2 + 1, [])
              else none
            | [] => none
          else none
        | [] => none
      | none => none
    else none

/-- Matcher for
`\\(?:todo|davide|sasha|joel|logan|wil|vezhnick)\[[^\]]*\]\{[^}]*\}` with
empty replacement. -/
def annotTry2 (s : List Char) : Option (Nat × List Char) :=
  match s with
  | [] => none
  | c :: r =>
    if c = bs then
      match pickName annotNames r with
      | some nl =>
        match r.drop nl with
        | d :: r2 =>
          if d = '[' then
            match r2.drop (spanLen (fun c => !(c = ']')) r2) with
            | e :: r3 =>
              if e = ']' then
                match r3 with
                | f :: r4 =>
                  if f = lb then
                    match r4.drop (spanLen (fun c => !(c = rb)) r4) with
                    | g :: _ =>
                      if g = rb then
                        some (1 + nl + 1 + spanLen (fun c => !(c = ']')) r2 + 1 + 1 +
                          spanLen (fun c => !(c = rb)) r4 + 1, [])
                      else none
                    | [] => none
                  else none
                | [] => none
              else none
            | [] => none
          else none
        | [] => none
      | none => none
    else none

/-- Python dict assignment `macros[cmd] = replacement`: order of first
insertion, last value wins. -/
def upsert : List (List Char × List Char) → List Char × List Char →
    List (List Char × List Char)
  | [], p => [p]
  | q :: r, p => if q.1 = p.1 then (p.1, p.2) :: r else q :: upsert r p

/-- Build the macro table from the finder's matches, skipping replacements
that contain a parameter marker `#` (`src/tex2epub/preprocessor.py:285-287`). -/
def buildTable (ps : List (List Char × List Char)) : List (List Char × List Char) :=
  ps.foldl (fun t p => if hasOcc "#".data p.2 then t else upsert t p) []

/-- `_expand_simple_macros` (`src/tex2epub/preprocessor.py:275-307`): scan
the zero-argument definitions into a table, delete all definition
directives, then substitute each table entry with `re.sub`, whose
replacement string goes through template expansion — a backslash sequence
in the replacement can raise (`Res.err`); finally delete the known
annotation commands. -/
def expand_simple_commands (content : List Char) : Res :=
  (match (buildTable (collectE defFindTry content)).foldl
      (fun acc p =>
        match acc with
        | Res.err e => Res.err e
        | Res.ok c =>
          match expandTpl p.2 with
          | none => Res.err "re sub template error".data
          | some rt => Res.ok (subE (cmdTry p.1 rt) c))
      (Res.ok (subE defRemoveTry content)) with
  | Res.err e => Res.err e
  | Res.ok c => Res.ok (subE annotTry2 (subE annotTry1 c)))

theorem spanLen_append_of_all {p : Char → Bool} {a : List Char}
    (h : ∀ c ∈ a, p c = true) (r : List Char) :
    spanLen p (a ++ r) = a.length + spanLen p r := by
  induction a with
  | nil => simp
  | cons c cs ih =>
    have hc : p c = true := h c (List.mem_cons_self c cs)
    show spanLen p (c :: (cs ++ r)) = _
    rw [spanLen, if_pos hc, ih (fun x hx => h x (List.mem_cons_of_mem c hx))]
    simp only [List.length_cons]
    omega

theorem spanLen_cons_neg {p : Char → Bool} {c : Char} (r : List Char) (h : p c = false) :
    spanLen p (c :: r) = 0 := by
  rw [spanLen, if_neg (by simp [h])]

theorem expandTplF_id {fuel : Nat} : ∀ {s : List Char}, s.length ≤ fuel →
    (∀ c ∈ s, ¬ c = bs) → expandTplF fuel s = some s := by
  induction fuel with
  | zero =>
    intro s hs _
    have : s = [] := List.length_eq_zero.mp (Nat.le_zero.mp hs)
    subst this
    rfl
  | succ fuel ih =>
    intro s hs h
    cases s with
    | nil => rfl
    | cons c rest =>
      have hc : ¬ c = bs := h c (List.mem_cons_self c rest)
      show (if c = bs then _ else (expandTplF fuel rest).map (c :: ·)) = some (c :: rest)
      rw [if_neg hc, ih (by simpa using hs) (fun x hx => h x (List.mem_cons_of_mem c hx))]
      rfl

theorem expandTpl_id {s : List Char} (h : ∀ c ∈ s, ¬ c = bs) : expandTpl s = some s :=
  expandTplF_id (le_refl _) h

theorem parseG2_flat {R : List Char} (h : ∀ c ∈ R, nonBrace c = true) (tail : List Char) :
    parseG2 (R ++ rb :: tail) = R.length := by
  have hsp : spanLen nonBrace (R ++ rb :: tail) = R.length := by
    rw [spanLen_append_of_all h, spanLen_cons_neg _ (by decide)]
    omega
  have hlen : (R ++ rb :: tail).length = R.length + tail.length + 1 := by
    simp only [List.length_append, List.length_cons]
    omega
  unfold parseG2
  rw [hlen]
  show parseG2F (R.length + tail.length + 1) (R ++ rb :: tail) = R.length
  rw [parseG2F, hsp, List.drop_left R (rb :: tail)]
  simp
  intro hrl
  exact absurd hrl (by decide)

theorem hasOcc_single_false {c : Char} {s : List Char} (h : c ∉ s) :
    hasOcc [c] s = false := by
  unfold hasOcc
  rw [firstOcc_none_of_cleanOf (by simp) (cleanOf_single_of_not_mem h)]
  rfl

set_option maxRecDepth 8000 in
/-- Claim C2: refuted by the code — the simple-macro expander is not total.
For a document whose zero-argument definition has the replacement text
`\emph{y}`, `re.sub` compiles the replacement as a template and raises
`re.error: bad escape \e` (modelled as `Res.err`), so the stage raises
rather than returning a result. -/
theorem c2_expand_simple_commands_raises :
    expand_simple_commands "\\newcommand\x7b\\x\x7d\x7b\\emph\x7by\x7d\x7d body".data =
      Res.err "re sub template error".data := by
  decide

set_option maxRecDepth 8000 in
/-- Counterexample for C3 as stated: with the literal replacement text
`\today`, the occurrence of `\x` is replaced by a TAB followed by `oday`
(the template escape `\t`), not by the literal replacement text. -/
theorem c3_counterexample :
    expand_simple_commands "\\newcommand\x7b\\x\x7d\x7b\\today\x7d\n\\x".data =
      Res.ok "\today".data ∧ "\today".data ≠ "\\today".data := by
  exact ⟨by decide, by decide⟩

/-- Claim C3 (amended): for a document defining one zero-argument command
with a replacement text `R` free of backslashes, braces and `#`, the
expander deletes the definition and replaces the whole-token occurrence of
the command by exactly the literal `R`, while occurrences whose command
name continues with further letters (strict prefixes of longer names) and
all other text are left unchanged.  (The backslash restriction is forced by
the counterexample: `re.sub` template-processes the replacement.) -/
theorem c3_expand_simple_commands_amended
    (name R b1 b2 : List Char)
    (hname : 1 ≤ name.length)
    (hletters : ∀ c ∈ name, isTexLetter c = true)
    (hRc : ∀ c ∈ R, ¬ c = lb ∧ ¬ c = rb ∧ ¬ c = bs ∧ ¬ c = '#')
    (hb0 : ∀ c, (b1 ++ ((bs :: name) ++ b2)).head? = some c → isPySpace c = false)
    (hfind : ∀ i, i < (b1 ++ ((bs :: name) ++ b2)).length →
      defFindTry ((b1 ++ ((bs :: name) ++ b2)).drop i) = none)
    (hrem : ∀ i, i < (b1 ++ ((bs :: name) ++ b2)).length →
      defRemoveTry ((b1 ++ ((bs :: name) ++ b2)).drop i) = none)
    (hocc1 : ∀ i, i < b1.length →
      cmdTry (bs :: name) R ((b1 ++ ((bs :: name) ++ b2)).drop i) = none)
    (hb2head : nextNotLetter b2 = true)
    (hocc2 : ∀ i, i < b2.length → cmdTry (bs :: name) R (b2.drop i) = none)
    (hann1 : ∀ i, i < (b1 ++ (R ++ b2)).length → annotTry1 ((b1 ++ (R ++ b2)).drop i) = none)
    (hann2 : ∀ i, i < (b1 ++ (R ++ b2)).length → annotTry2 ((b1 ++ (R ++ b2)).drop i) = none) :
    expand_simple_commands
      (defHead1 ++ (bs :: (name ++ (rb :: (lb ::
        (R ++ (rb :: (b1 ++ ((bs :: name) ++ b2))))))))) =
      Res.ok (b1 ++ (R ++ b2)) := by
  have hcnb : ∀ c ∈ R, nonBrace c = true := by
    intro c hc
    obtain ⟨h1, h2, -, -⟩ := hRc c hc
    simp [nonBrace, h1, h2]
  have hRbs : ∀ c ∈ R, ¬ c = bs := fun c hc => (hRc c hc).2.2.1
  have hsp1 : spanLen isTexLetter
      (name ++ (rb :: (lb :: (R ++ (rb :: (b1 ++ ((bs :: name) ++ b2))))))) = name.length := by
    rw [spanLen_append_of_all hletters, spanLen_cons_neg _ (by decide)]
    omega
  have hwsbody : spanLen isPySpace (b1 ++ ((bs :: name) ++ b2)) = 0 := by
    cases hx : b1 ++ ((bs :: name) ++ b2) with
    | nil => rfl
    | cons c bt =>
      refine spanLen_cons_neg _ ?_
      have := hb0 c (by rw [hx]; rfl)
      exact this
  have hfindDoc : defFindTry
      (defHead1 ++ (bs :: (name ++ (rb :: (lb ::
        (R ++ (rb :: (b1 ++ ((bs :: name) ++ b2))))))))) =
      some (defHead1.length + 1 + name.length + 1 + 1 + R.length + 1,
        (bs :: name, R)) := by
    unfold defFindTry
    rw [if_pos (startsWith_append defHead1 _), List.drop_left defHead1 _]
    rw [defFindAfterHead, if_pos (rfl : bs = bs), hsp1, if_pos hname]
    rw [List.take_left name _, List.drop_left name _]
    rw [defFindClose, if_pos (rfl : rb = rb)]
    rw [defFindGroup2, if_pos (rfl : lb = lb)]
    rw [parseG2_flat hcnb _]
    rw [List.take_left R _, List.drop_left R _]
    rw [defFindEnd, if_pos (rfl : rb = rb)]
  have hremDoc : defRemoveTry
      (defHead1 ++ (bs :: (name ++ (rb :: (lb ::
        (R ++ (rb :: (b1 ++ ((bs :: name) ++ b2))))))))) =
      some (defHead1.length + 1 + name.length + 1 + 1 + R.length + 1, []) := by
    unfold defRemoveTry
    rw [if_pos (startsWith_append defHead1 _), List.drop_left defHead1 _]
    rw [defRemoveAfterHead, if_pos (rfl : bs = bs), hsp1, if_pos hname]
    rw [List.drop_left name _]
    rw [defRemoveClose, if_pos (rfl : rb = rb)]
    rw [defRemoveOpt, if_neg (by decide : ¬ lb = '[')]
    rw [defRemoveG2, if_pos (rfl : lb = lb)]
    rw [parseG2_flat hcnb _]
    rw [List.drop_left R _]
    rw [defRemoveEnd, if_pos (rfl : rb = rb), hwsbody]
  have hplen : (defHead1 ++ ((bs :: name) ++ ([rb, lb] ++ (R ++ [rb])))).length =
      defHead1.length + 1 + name.length + 1 + 1 + R.length + 1 := by
    simp only [List.length_append, List.length_cons, List.length_nil]
    omega
  have hdocsplit : defHead1 ++ (bs :: (name ++ (rb :: (lb ::
      (R ++ (rb :: (b1 ++ ((bs :: name) ++ b2)))))))) =
      (defHead1 ++ ((bs :: name) ++ ([rb, lb] ++ (R ++ [rb])))) ++
        (b1 ++ ((bs :: name) ++ b2)) := by
    simp [List.append_assoc]
  have hdrop : List.drop (defHead1.length + 1 + name.length + 1 + 1 + R.length + 1)
      (defHead1 ++ (bs :: (name ++ (rb :: (lb ::
        (R ++ (rb :: (b1 ++ ((bs :: name) ++ b2))))))))) =
      b1 ++ ((bs :: name) ++ b2) := by
    rw [hdocsplit, ← hplen, List.drop_left]
  have hcollect : collectE defFindTry
      (defHead1 ++ (bs :: (name ++ (rb :: (lb ::
        (R ++ (rb :: (b1 ++ ((bs :: name) ++ b2))))))))) = [(bs :: name, R)] := by
    have hlen12 : defHead1.length = 12 := by decide
    have h0 := collectE_splice (a := ([] : List Char)) (f := defFindTry)
      (fun i hi => absurd hi (by simp)) hfindDoc (by omega) (by simp [defHead1])
    rw [List.nil_append] at h0
    rw [h0, hdrop, collectE_no_match hfind]
  have hc1 : subE defRemoveTry
      (defHead1 ++ (bs :: (name ++ (rb :: (lb ::
        (R ++ (rb :: (b1 ++ ((bs :: name) ++ b2))))))))) =
      b1 ++ ((bs :: name) ++ b2) := by
    have hlen12 : defHead1.length = 12 := by decide
    have h0 := subE_splice (a := ([] : List Char)) (f := defRemoveTry)
      (fun i hi => absurd hi (by simp)) hremDoc (by omega) (by simp [defHead1])
    rw [List.nil_append] at h0
    rw [h0, hdrop, subE_no_match hrem]
    simp
  have htable : buildTable [(bs :: name, R)] = [(bs :: name, R)] := by
    unfold buildTable
    simp only [List.foldl]
    have hhash : hasOcc "#".data R = false := by
      have : "#".data = ['#'] := rfl
      rw [this]
      exact hasOcc_single_false (fun hm => (hRc '#' hm).2.2.2 rfl)
    rw [hhash]
    rfl
  have hsubst : subE (cmdTry (bs :: name) R) (b1 ++ ((bs :: name) ++ b2)) =
      b1 ++ (R ++ b2) := by
    have hb : cmdTry (bs :: name) R ((bs :: name) ++ b2) =
        some ((bs :: name).length, R) := by
      unfold cmdTry
      rw [if_pos]
      exact ⟨startsWith_append _ _, by rw [List.drop_left]; exact hb2head⟩
    rw [subE_splice hocc1 hb (by simp) (by simp)]
    rw [List.drop_left (bs :: name) b2]
    rw [subE_no_match hocc2]
    simp [List.append_assoc]
  have hann1' : subE annotTry1 (b1 ++ (R ++ b2)) = b1 ++ (R ++ b2) := subE_no_match hann1
  have hann2' : subE annotTry2 (b1 ++ (R ++ b2)) = b1 ++ (R ++ b2) := subE_no_match hann2
  unfold expand_simple_commands
  rw [hcollect, htable, hc1]
  simp only [List.foldl]
  rw [expandTpl_id hRbs]
  simp only [hsubst, hann1', hann2']

set_option maxRecDepth 8000 in
/-- Witness for C3's amended statement: `\x` defined as `Foo` expands the
standalone `\x`, leaves the longer-named `\xy` alone, and deletes the
definition. -/
theorem c3_witness :
    expand_simple_commands "\\newcommand\x7b\\x\x7d\x7bFoo\x7dA \\xy \\x b".data =
      Res.ok "A \\xy Foo b".data := by
  have h := c3_expand_simple_commands_amended "x".data "Foo".data "A \\xy ".data " b".data
    (by decide) (by decide) (by decide) (by decide) (by decide) (by decide) (by decide)
    (by decide) (by decide) (by decide) (by decide)
  have e1 : "\\newcommand\x7b\\x\x7d\x7bFoo\x7dA \\xy \\x b".data =
      defHead1 ++ (bs :: ("x".data ++ (rb :: (lb :: ("Foo".data ++
        (rb :: ("A \\xy ".data ++ ((bs :: "x".data) ++ " b".data)))))))) := by decide
  have e2 : "A \\xy Foo b".data = "A \\xy ".data ++ ("Foo".data ++ " b".data) := by decide
  rw [e1, e2, h]

/-- The citation-span opening token searched for by `_link_citations`
(`src/tex2epub/postprocessor.py:264`). -/
def citeMarker : List Char := "<span class=\"citation\" data-cites=\"".data

/-- The nested-span opening token `<span` of the depth scan. -/
def openTok : List Char := "<span".data

/-- The span closing token `</span>` of the depth scan. -/
def closeTok : List Char := "</span>".data

/-- The fuelled inner while loop of `_link_citations`
(`src/tex2epub/postprocessor.py:283-297`): track nesting depth against
further `<span` / `</span>` tokens; return the end position (just past the
matching `</span>`) when the depth returns to zero, `none` when the loop
ends without ever setting `span_end` (no close token found, or the scan ran
off the end, or it was entered at depth 0).  Each iteration advances `scan`,
so `content.length + 1` fuel is always sufficient. -/
def spanScanF (content : List Char) : Nat → Nat → Nat → Option Nat
  | 0, _, _ => none
  | fuel + 1, scan, depth =>
    if depth = 0 then none
    else if content.length ≤ scan then none
    else
      match findFrom closeTok content scan with
      | none => none
      | some nc =>
        match findFrom openTok content scan with
        | some no =>
          if no < nc then spanScanF content fuel (no + 5) (depth + 1)
          else if depth = 1 then some (nc + 7)
          else spanScanF content fuel (nc + 7) (depth - 1)
        | none =>
          if depth = 1 then some (nc + 7)
          else spanScanF content fuel (nc + 7) (depth - 1)

/-- Python's stale-variable semantics for `span_end`: the loop's result if
it set `span_end`, otherwise whatever value the (Python local) variable had
from a previous iteration of the outer loop — `none` meaning unbound. -/
def staleOr (stale : Option Nat) : Option Nat → Option Nat
  | some e => some e
  | none => stale

/-- Fuelled Python `str.split()`. -/
def splitWsF : Nat → List Char → List (List Char)
  | 0, _ => []
  | fuel + 1, s =>
    match s.dropWhile isPySpace with
    | [] => []
    | c :: r =>
      ((c :: r).takeWhile (fun x => !isPySpace x)) ::
        splitWsF fuel ((c :: r).dropWhile (fun x => !isPySpace x))

/-- Python `str.split()` (whitespace runs, empty fields dropped). -/
def splitWs (s : List Char) : List (List Char) := splitWsF s.length s

/-- The fuelled outer while loop of `_link_citations`
(`src/tex2epub/postprocessor.py:262-311`): find the next citation-span
opening token, extract the cite-key attribute up to the next `"`, find the
end of the opening tag (`>`), find the span's end by the nesting-depth scan,
and emit either the span wrapped in a hyperlink built from the first
cite-key (when `ref-key` is a known bibliography identifier) or the span
unchanged.  `Res.err` models the exceptions the source can raise
(`str.index` failing, `span_end` unbound, an empty cite-key list), and fuel
exhaustion models the infinite loop possible when a stale `span_end` moves
`pos` backwards. -/
inductive LinkStep where
  | done : LinkStep
  | fail : List Char → LinkStep
  | found : Nat → Nat → List Char → LinkStep

/-- One iteration head of the outer loop: locate the next citation marker,
the attribute-closing quote, the tag-closing angle bracket, the span end
(depth scan with Python's stale-variable fallback) and the first cite-key;
`fail` carries the exception the source would raise. -/
def linkStep (content : List Char) (pos : Nat) (stale : Option Nat) : LinkStep :=
  match findFrom citeMarker content pos with
  | none => .done
  | some idx =>
    match findFrom ['"'] content (idx + citeMarker.length) with
    | none => .fail "ValueError".data
    | some qEnd =>
      match findFrom ['>'] content qEnd with
      | none => .fail "ValueError".data
      | some gt =>
        match staleOr stale (spanScanF content (content.length + 1) (gt + 1) 1) with
        | none => .fail "UnboundLocalError".data
        | some spanEnd =>
          match splitWs ((content.drop (idx + citeMarker.length)).take
              (qEnd - (idx + citeMarker.length))) with
          | [] => .fail "IndexError".data
          | k :: _ => .found idx spanEnd k

def linkLoop (bc : List Char) (ids : List (List Char)) (content : List Char) :
    Nat → Nat → Option Nat → Res
  | 0, _, _ => Res.err "infinite loop".data
  | fuel + 1, pos, stale =>
    match linkStep content pos stale with
    | .done => Res.ok (content.drop pos)
    | .fail e => Res.err e
    | .found idx spanEnd k =>
      match linkLoop bc ids content fuel spanEnd (some spanEnd) with
      | Res.err e => Res.err e
      | Res.ok rest =>
        Res.ok ((content.drop pos).take (idx - pos) ++
          ((if ("ref-".data ++ k) ∈ ids then
              "<a href=\"".data ++ (bc ++ ("#ref-".data ++ (k ++ ("\">".data ++
                ((content.drop idx).take (spanEnd - idx) ++ "</a>".data)))))
            else (content.drop idx).take (spanEnd - idx)) ++ rest))

/-- The per-file text transformation of `_link_citations`
(`src/tex2epub/postprocessor.py:255-314`), given the bibliography chapter
name and its entry-identifier set: files without `data-cites=` are left
untouched, otherwise the scan loop runs from position 0. -/
def link_citations (bc : List Char) (ids : List (List Char)) (content : List Char) : Res :=
  if hasOcc "data-cites=".data content then
    linkLoop bc ids content (content.length + 1) 0 none
  else Res.ok content

/-- Well-nested span forests: the shape of citeproc's nested multi-citation
markup inside a citation span. -/
inductive SF where
  | leaf : List Char → SF
  | branch : List Char → SF → SF → SF

/-- The text of a span forest: a `branch p c r` is text `p`, a nested
`<span … </span>` around `c`, then `r`. -/
def SF.flat : SF → List Char
  | .leaf t => t
  | .branch p c r => p ++ (openTok ++ (SF.flat c ++ (closeTok ++ SF.flat r)))

/-- Side conditions making the depth scan deterministic: the plain-text
parts contain no (partial) occurrence of either span token. -/
def SFok : SF → Bool
  | .leaf t => cleanOf openTok t && cleanOf closeTok t
  | .branch p c r => cleanOf openTok p && cleanOf closeTok p && SFok c && SFok r

/-- The full text of one citation span with cite-key attribute `keys`,
remaining attribute text `attrs` and inner forest `sf`. -/
def spanText (keys attrs : List Char) (sf : SF) : List Char :=
  citeMarker ++ (keys ++ ('"' :: (attrs ++ ('>' :: (SF.flat sf ++ closeTok)))))

/-- A content fragment as a sequence of citation spans with interleaved
text. -/
inductive Frag where
  | done : List Char → Frag
  | cite : List Char → List Char → List Char → SF → Frag → Frag

/-- The fragment's text. -/
def Frag.flat : Frag → List Char
  | .done t => t
  | .cite pre keys attrs sf rest => pre ++ (spanText keys attrs sf ++ Frag.flat rest)

/-- Side conditions: text between spans holds no (partial) citation marker,
cite-key attributes hold no `"`, attribute tails no `>`, at least one
cite-key, and well-nested inner forests. -/
def FragOk : Frag → Bool
  | .done t => cleanOf citeMarker t
  | .cite pre keys attrs sf rest =>
      cleanOf citeMarker pre && !(decide ('"' ∈ keys)) && !(decide ('>' ∈ attrs)) &&
        !(splitWs keys).isEmpty && SFok sf && FragOk rest

/-- The expected output: each span is wrapped in a hyperlink to
`bc#ref-k` (`k` the first cite-key) when that identifier is known,
otherwise emitted unchanged; all other text is copied. -/
def Frag.out (bc : List Char) (ids : List (List Char)) : Frag → List Char
  | .done t => t
  | .cite pre keys attrs sf rest =>
      pre ++ ((match splitWs keys with
        | [] => spanText keys attrs sf
        | k :: _ =>
          if ("ref-".data ++ k) ∈ ids then
            "<a href=\"".data ++ (bc ++ ("#ref-".data ++ (k ++ ("\">".data ++
              (spanText keys attrs sf ++ "</a>".data)))))
          else spanText keys attrs sf) ++ Frag.out bc ids rest)

theorem findFrom_ge {pat s : List Char} {st k : Nat} (h : findFrom pat s st = some k) :
    st ≤ k := by
  unfold findFrom at h
  cases hx : firstOcc pat (s.drop st) with
  | none => rw [hx] at h; simp at h
  | some j => rw [hx] at h; simp at h; omega

theorem spanScanF_open {content : List Char} {f scan depth nc no : Nat}
    (hd : ¬ depth = 0) (hs : ¬ content.length ≤ scan)
    (hfc : findFrom closeTok content scan = some nc)
    (hfo : findFrom openTok content scan = some no) (hlt : no < nc) :
    spanScanF content (f + 1) scan depth = spanScanF content f (no + 5) (depth + 1) := by
  simp only [spanScanF, if_neg hd, if_neg hs, hfc, hfo, if_pos hlt]

theorem spanScanF_close_some {content : List Char} {f scan depth nc no : Nat}
    (hd : ¬ depth = 0) (hs : ¬ content.length ≤ scan)
    (hfc : findFrom closeTok content scan = some nc)
    (hfo : findFrom openTok content scan = some no) (hlt : ¬ no < nc) :
    spanScanF content (f + 1) scan depth =
      if depth = 1 then some (nc + 7) else spanScanF content f (nc + 7) (depth - 1) := by
  simp only [spanScanF, if_neg hd, if_neg hs, hfc, hfo, if_neg hlt]

theorem spanScanF_close_none {content : List Char} {f scan depth nc : Nat}
    (hd : ¬ depth = 0) (hs : ¬ content.length ≤ scan)
    (hfc : findFrom closeTok content scan = some nc)
    (hfo : findFrom openTok content scan = none) :
    spanScanF content (f + 1) scan depth =
      if depth = 1 then some (nc + 7) else spanScanF content f (nc + 7) (depth - 1) := by
  simp only [spanScanF, if_neg hd, if_neg hs, hfc, hfo]

theorem spanScanF_fuel (content : List Char) :
    ∀ fuel fuel' scan depth, content.length - scan < fuel → content.length - scan < fuel' →
      spanScanF content fuel scan depth = spanScanF content fuel' scan depth := by
  intro fuel
  induction fuel with
  | zero => intro fuel' scan depth h _; omega
  | succ f ih =>
    intro fuel' scan depth h h'
    cases fuel' with
    | zero => omega
    | succ f' =>
      by_cases hd : depth = 0
      · simp only [spanScanF, if_pos hd]
      by_cases hs : content.length ≤ scan
      · simp only [spanScanF, if_neg hd, if_pos hs]
      cases hfc : findFrom closeTok content scan with
      | none => simp only [spanScanF, if_neg hd, if_neg hs, hfc]
      | some nc =>
        have hncge : scan ≤ nc := findFrom_ge hfc
        cases hfo : findFrom openTok content scan with
        | none =>
          rw [spanScanF_close_none hd hs hfc hfo, spanScanF_close_none hd hs hfc hfo]
          by_cases h1 : depth = 1
          · rw [if_pos h1, if_pos h1]
          · rw [if_neg h1, if_neg h1]
            exact ih f' (nc + 7) (depth - 1) (by omega) (by omega)
        | some no =>
          have hnoge : scan ≤ no := findFrom_ge hfo
          by_cases hlt : no < nc
          · rw [spanScanF_open hd hs hfc hfo hlt, spanScanF_open hd hs hfc hfo hlt]
            exact ih f' (no + 5) (depth + 1) (by omega) (by omega)
          · rw [spanScanF_close_some hd hs hfc hfo hlt,
              spanScanF_close_some hd hs hfc hfo hlt]
            by_cases h1 : depth = 1
            · rw [if_pos h1, if_pos h1]
            · rw [if_neg h1, if_neg h1]
              exact ih f' (nc + 7) (depth - 1) (by omega) (by omega)

theorem findFrom_at {pat : List Char} (A X : List Char) :
    findFrom pat (A ++ X) A.length = (firstOcc pat X).map (A.length + ·) := by
  unfold findFrom
  rw [List.drop_left]

theorem spanScanF_forest : ∀ sf : SF, SFok sf = true →
    ∀ (content A B : List Char) (d fuel : Nat),
      content = A ++ (SF.flat sf ++ (closeTok ++ B)) →
      content.length - A.length < fuel → 1 ≤ d →
      spanScanF content fuel A.length d =
        if d = 1 then some (A.length + ((SF.flat sf).length + 7))
        else spanScanF content (content.length + 1)
          (A.length + ((SF.flat sf).length + 7)) (d - 1) := by
  have hco : cleanOf openTok closeTok = true := by decide
  have hcc : cleanOf closeTok openTok = true := by decide
  have h5 : openTok.length = 5 := rfl
  have h7 : closeTok.length = 7 := rfl
  intro sf
  induction sf with
  | leaf t =>
    intro hok content A B d fuel hc hfuel hd
    simp only [SFok, Bool.and_eq_true] at hok
    obtain ⟨h1, h2⟩ := hok
    simp only [SF.flat] at hc ⊢
    subst hc
    have hlen : (A ++ (t ++ (closeTok ++ B))).length =
        A.length + (t.length + (7 + B.length)) := by
      simp only [List.length_append, h7]
    cases fuel with
    | zero => omega
    | succ f =>
      have hd0 : ¬ d = 0 := by omega
      have hs : ¬ (A ++ (t ++ (closeTok ++ B))).length ≤ A.length := by omega
      have hfc : findFrom closeTok (A ++ (t ++ (closeTok ++ B))) A.length =
          some (A.length + t.length) := by
        rw [findFrom_at]
        have hx : firstOcc closeTok (t ++ (closeTok ++ B)) = some t.length := by
          rw [← List.append_assoc]
          exact firstOcc_at_junction h2 B
        rw [hx]
        rfl
      have hgo : (if d = 1 then some (A.length + t.length + 7)
            else spanScanF (A ++ (t ++ (closeTok ++ B))) f (A.length + t.length + 7) (d - 1)) =
          if d = 1 then some (A.length + (t.length + 7))
          else spanScanF (A ++ (t ++ (closeTok ++ B)))
            ((A ++ (t ++ (closeTok ++ B))).length + 1) (A.length + (t.length + 7)) (d - 1) := by
        have hpos : A.length + t.length + 7 = A.length + (t.length + 7) := by omega
        rw [hpos]
        by_cases h1d : d = 1
        · rw [if_pos h1d, if_pos h1d]
        · rw [if_neg h1d, if_neg h1d]
          exact spanScanF_fuel _ f _ _ _ (by omega) (by omega)
      cases hB : firstOcc openTok B with
      | none =>
        have hfo : findFrom openTok (A ++ (t ++ (closeTok ++ B))) A.length = none := by
          rw [findFrom_at, firstOcc_shift h1, firstOcc_shift hco, hB]
          rfl
        rw [spanScanF_close_none hd0 hs hfc hfo]
        exact hgo
      | some j =>
        have hfo : findFrom openTok (A ++ (t ++ (closeTok ++ B))) A.length =
            some (A.length + (t.length + (7 + j))) := by
          rw [findFrom_at, firstOcc_shift h1, firstOcc_shift hco, hB]
          rfl
        have hnlt : ¬ (A.length + (t.length + (7 + j)) < A.length + t.length) := by omega
        rw [spanScanF_close_some hd0 hs hfc hfo hnlt]
        exact hgo
  | branch p c r ihc ihr =>
    intro hok content A B d fuel hc hfuel hd
    simp only [SFok, Bool.and_eq_true] at hok
    obtain ⟨⟨⟨hp1, hp2⟩, hcok⟩, hrok⟩ := hok
    simp only [SF.flat] at hc ⊢
    subst hc
    have hlen : (A ++ ((p ++ (openTok ++ (SF.flat c ++ (closeTok ++ SF.flat r)))) ++
        (closeTok ++ B))).length =
        A.length + (p.length + (5 + ((SF.flat c).length +
          (7 + ((SF.flat r).length + (7 + B.length)))))) := by
      simp only [List.length_append, h5, h7]
      omega
    cases fuel with
    | zero => omega
    | succ f =>
      have hd0 : ¬ d = 0 := by omega
      have hs : ¬ (A ++ ((p ++ (openTok ++ (SF.flat c ++ (closeTok ++ SF.flat r)))) ++
          (closeTok ++ B))).length ≤ A.length := by omega
      have hre : (p ++ (openTok ++ (SF.flat c ++ (closeTok ++ SF.flat r)))) ++
          (closeTok ++ B) =
          p ++ (openTok ++ (SF.flat c ++ (closeTok ++ (SF.flat r ++ (closeTok ++ B))))) := by
        simp [List.append_assoc]
      have hXs : (firstOcc closeTok
          (SF.flat c ++ (closeTok ++ (SF.flat r ++ (closeTok ++ B))))).isSome = true := by
        apply firstOcc_isSome_mono
        rw [firstOcc_of_startsWith (startsWith_append closeTok _)]
        rfl
      obtain ⟨k, hk⟩ := Option.isSome_iff_exists.mp hXs
      have hfc : findFrom closeTok (A ++ ((p ++ (openTok ++ (SF.flat c ++
          (closeTok ++ SF.flat r)))) ++ (closeTok ++ B))) A.length =
          some (A.length + (p.length + (5 + k))) := by
        rw [findFrom_at, hre, firstOcc_shift hp2, firstOcc_shift hcc, hk]
        rfl
      have hfo : findFrom openTok (A ++ ((p ++ (openTok ++ (SF.flat c ++
          (closeTok ++ SF.flat r)))) ++ (closeTok ++ B))) A.length =
          some (A.length + p.length) := by
        have hre2 : p ++ (openTok ++ (SF.flat c ++ (closeTok ++ (SF.flat r ++
            (closeTok ++ B))))) =
            p ++ openTok ++ (SF.flat c ++ (closeTok ++ (SF.flat r ++ (closeTok ++ B)))) := by
          simp [List.append_assoc]
        rw [findFrom_at, hre, hre2, firstOcc_at_junction hp1]
        rfl
      have hlt : A.length + p.length < A.length + (p.length + (5 + k)) := by omega
      rw [spanScanF_open hd0 hs hfc hfo hlt]
      have hc1 : A ++ ((p ++ (openTok ++ (SF.flat c ++ (closeTok ++ SF.flat r)))) ++
          (closeTok ++ B)) =
          (A ++ (p ++ openTok)) ++ (SF.flat c ++ (closeTok ++ (SF.flat r ++
            (closeTok ++ B)))) := by
        simp [List.append_assoc]
      have hA1 : (A ++ (p ++ openTok)).length = A.length + (p.length + 5) := by
        simp only [List.length_append, h5]
      have h1 := ihc hcok _ (A ++ (p ++ openTok)) (SF.flat r ++ (closeTok ++ B)) (d + 1) f
        hc1 (by rw [hA1]; omega) (by omega)
      have hpos1 : A.length + p.length + 5 = (A ++ (p ++ openTok)).length := by
        rw [hA1]; omega
      rw [hpos1, h1, if_neg (by omega : ¬ d + 1 = 1)]
      have hc2 : A ++ ((p ++ (openTok ++ (SF.flat c ++ (closeTok ++ SF.flat r)))) ++
          (closeTok ++ B)) =
          (A ++ (p ++ (openTok ++ (SF.flat c ++ closeTok)))) ++
            (SF.flat r ++ (closeTok ++ B)) := by
        simp [List.append_assoc]
      have hA2 : (A ++ (p ++ (openTok ++ (SF.flat c ++ closeTok)))).length =
          A.length + (p.length + (5 + ((SF.flat c).length + 7))) := by
        simp only [List.length_append, h5, h7]
      have h2 := ihr hrok _ (A ++ (p ++ (openTok ++ (SF.flat c ++ closeTok)))) B d
        ((A ++ ((p ++ (openTok ++ (SF.flat c ++ (closeTok ++ SF.flat r)))) ++
          (closeTok ++ B))).length + 1)
        hc2 (by omega) hd
      have hpos2 : (A ++ (p ++ openTok)).length + ((SF.flat c).length + 7) =
          (A ++ (p ++ (openTok ++ (SF.flat c ++ closeTok)))).length := by
        rw [hA1, hA2]; omega
      have hd1 : d + 1 - 1 = d := rfl
      rw [hd1, hpos2, h2]
      have hfin : (A ++ (p ++ (openTok ++ (SF.flat c ++ closeTok)))).length +
          ((SF.flat r).length + 7) =
          A.length + ((p ++ (openTok ++ (SF.flat c ++ (closeTok ++ SF.flat r)))).length + 7) := by
        rw [hA2]
        simp only [List.length_append, h5, h7]
        omega
      rw [hfin]

theorem linkStep_none {content : List Char} {pos : Nat} {stale : Option Nat}
    (hfm : findFrom citeMarker content pos = none) :
    linkStep content pos stale = .done := by
  simp only [linkStep, hfm]

theorem linkStep_found {content : List Char} {pos idx qEnd gt spanEnd : Nat}
    {stale : Option Nat}
    (hfm : findFrom citeMarker content pos = some idx)
    (hq : findFrom ['"'] content (idx + citeMarker.length) = some qEnd)
    (hg : findFrom ['>'] content qEnd = some gt)
    (hsc : staleOr stale (spanScanF content (content.length + 1) (gt + 1) 1) = some spanEnd)
    {k : List Char} {ks : List (List Char)}
    (hsp : splitWs ((content.drop (idx + citeMarker.length)).take
      (qEnd - (idx + citeMarker.length))) = k :: ks) :
    linkStep content pos stale = .found idx spanEnd k := by
  simp only [linkStep, hfm, hq, hg, hsc, hsp]

theorem linkLoop_none {bc : List Char} {ids : List (List Char)} {content : List Char}
    {f pos : Nat} {stale : Option Nat}
    (hfm : findFrom citeMarker content pos = none) :
    linkLoop bc ids content (f + 1) pos stale = Res.ok (content.drop pos) := by
  rw [linkLoop, linkStep_none hfm]

theorem linkLoop_step {bc : List Char} {ids : List (List Char)} {content : List Char}
    {f pos idx spanEnd : Nat} {stale : Option Nat} {k : List Char}
    (hstep : linkStep content pos stale = .found idx spanEnd k)
    {rest : List Char}
    (hrec : linkLoop bc ids content f spanEnd (some spanEnd) = Res.ok rest) :
    linkLoop bc ids content (f + 1) pos stale =
      Res.ok ((content.drop pos).take (idx - pos) ++
        ((if ("ref-".data ++ k) ∈ ids then
            "<a href=\"".data ++ (bc ++ ("#ref-".data ++ (k ++ ("\">".data ++
              ((content.drop idx).take (spanEnd - idx) ++ "</a>".data)))))
          else (content.drop idx).take (spanEnd - idx)) ++ rest)) := by
  rw [linkLoop, hstep]
  simp only [hrec]

theorem linkLoop_frag (bc : List Char) (ids : List (List Char)) :
    ∀ fr : Frag, FragOk fr = true →
    ∀ (content A : List Char) (stale : Option Nat) (fuel : Nat),
      content = A ++ Frag.flat fr →
      (Frag.flat fr).length < fuel →
      linkLoop bc ids content fuel A.length stale = Res.ok (Frag.out bc ids fr) := by
  intro fr
  induction fr with
  | done t =>
    intro hok content A stale fuel hc hfuel
    simp only [FragOk] at hok
    simp only [Frag.flat] at hc hfuel
    subst hc
    cases fuel with
    | zero => omega
    | succ f =>
      have hfm : findFrom citeMarker (A ++ t) A.length = none := by
        rw [findFrom_at, firstOcc_none_of_cleanOf (by decide) hok]
        rfl
      rw [linkLoop_none hfm, List.drop_left]
      rfl
  | cite pre keys attrs sf rest ih =>
    intro hok content A stale fuel hc hfuel
    simp only [FragOk, Bool.and_eq_true] at hok
    obtain ⟨⟨⟨⟨⟨hpre, hqk⟩, hgtn⟩, hne⟩, hsfok⟩, hrok⟩ := hok
    have hqk' : ('"' : Char) ∉ keys := by simpa using hqk
    have hgt' : ('>' : Char) ∉ attrs := by simpa using hgtn
    simp only [Frag.flat] at hc hfuel
    have hm35 : citeMarker.length = 35 := rfl
    have h7c : closeTok.length = 7 := rfl
    have hSlen : (spanText keys attrs sf).length =
        35 + (keys.length + (1 + (attrs.length + (1 + ((SF.flat sf).length + 7))))) := by
      simp only [spanText, List.length_append, List.length_cons, hm35, h7c]
      omega
    cases fuel with
    | zero => omega
    | succ f =>
      have hfm : findFrom citeMarker content A.length = some (A.length + pre.length) := by
        rw [hc]
        rw [show pre ++ (spanText keys attrs sf ++ Frag.flat rest) =
            pre ++ citeMarker ++ ((keys ++ ('"' :: (attrs ++ ('>' :: (SF.flat sf ++
              closeTok))))) ++ Frag.flat rest) from by
          simp [spanText, List.append_assoc]]
        rw [findFrom_at, firstOcc_at_junction hpre]
        rfl
      have hq : findFrom ['"'] content (A.length + pre.length + citeMarker.length) =
          some (A.length + pre.length + citeMarker.length + keys.length) := by
        rw [hc]
        rw [show A ++ (pre ++ (spanText keys attrs sf ++ Frag.flat rest)) =
            (A ++ (pre ++ citeMarker)) ++ ((keys ++ ['"']) ++ ((attrs ++ ('>' ::
              (SF.flat sf ++ closeTok))) ++ Frag.flat rest)) from by
          simp [spanText, List.append_assoc]]
        rw [show A.length + pre.length + citeMarker.length =
            (A ++ (pre ++ citeMarker)).length from by
          simp only [List.length_append]; omega]
        rw [findFrom_at, firstOcc_at_junction (cleanOf_single_of_not_mem hqk')]
        rfl
      have hg : findFrom ['>'] content (A.length + pre.length + citeMarker.length +
          keys.length) =
          some (A.length + pre.length + citeMarker.length + keys.length +
            (attrs.length + 1)) := by
        rw [hc]
        rw [show A ++ (pre ++ (spanText keys attrs sf ++ Frag.flat rest)) =
            (A ++ (pre ++ (citeMarker ++ keys))) ++ ((('"' :: attrs) ++ ['>']) ++
              (SF.flat sf ++ (closeTok ++ Frag.flat rest))) from by
          simp [spanText, List.append_assoc]]
        rw [show A.length + pre.length + citeMarker.length + keys.length =
            (A ++ (pre ++ (citeMarker ++ keys))).length from by
          simp only [List.length_append]; omega]
        have hcl : cleanOf ['>'] ('"' :: attrs) = true := by
          apply cleanOf_single_of_not_mem
          intro h
          rcases List.mem_cons.mp h with h1 | h2
          · exact absurd h1 (by decide)
          · exact hgt' h2
        rw [findFrom_at, firstOcc_at_junction hcl]
        rfl
      have hc3 : content = (A ++ (pre ++ (citeMarker ++ (keys ++ ('"' ::
          (attrs ++ ['>'])))))) ++ (SF.flat sf ++ (closeTok ++ Frag.flat rest)) := by
        rw [hc]
        simp [spanText, List.append_assoc]
      have hscan : spanScanF content (content.length + 1)
          (A.length + pre.length + citeMarker.length + keys.length +
            (attrs.length + 1) + 1) 1 =
          some (A.length + pre.length + citeMarker.length + keys.length +
            (attrs.length + 1) + 1 + ((SF.flat sf).length + 7)) := by
        rw [show A.length + pre.length + citeMarker.length + keys.length +
            (attrs.length + 1) + 1 =
            (A ++ (pre ++ (citeMarker ++ (keys ++ ('"' :: (attrs ++ ['>'])))))).length from by
          simp only [List.length_append, List.length_cons, List.length_nil]; omega]
        have hf := spanScanF_forest sf hsfok content _ (Frag.flat rest) 1
          (content.length + 1) hc3 (by omega) (by omega)
        rw [hf, if_pos rfl]
      have hsc : staleOr stale (spanScanF content (content.length + 1)
          (A.length + pre.length + citeMarker.length + keys.length +
            (attrs.length + 1) + 1) 1) =
          some (A.length + pre.length + citeMarker.length + keys.length +
            (attrs.length + 1) + 1 + ((SF.flat sf).length + 7)) := by
        rw [hscan]
        rfl
      have hslice : (content.drop (A.length + pre.length + citeMarker.length)).take
          (A.length + pre.length + citeMarker.length + keys.length -
            (A.length + pre.length + citeMarker.length)) = keys := by
        rw [hc]
        rw [show A ++ (pre ++ (spanText keys attrs sf ++ Frag.flat rest)) =
            (A ++ (pre ++ citeMarker)) ++ (keys ++ (('"' :: (attrs ++ ('>' ::
              (SF.flat sf ++ closeTok)))) ++ Frag.flat rest)) from by
          simp [spanText, List.append_assoc]]
        rw [show A.length + pre.length + citeMarker.length =
            (A ++ (pre ++ citeMarker)).length from by
          simp only [List.length_append]; omega]
        rw [List.drop_left]
        rw [show (A ++ (pre ++ citeMarker)).length + keys.length -
            (A ++ (pre ++ citeMarker)).length = keys.length from by omega]
        exact List.take_left keys _
      obtain ⟨k, ks, hspl⟩ : ∃ k ks, splitWs keys = k :: ks := by
        cases hx : splitWs keys with
        | nil => rw [hx] at hne; simp at hne
        | cons k ks => exact ⟨k, ks, rfl⟩
      have hsp : splitWs ((content.drop (A.length + pre.length + citeMarker.length)).take
          (A.length + pre.length + citeMarker.length + keys.length -
            (A.length + pre.length + citeMarker.length))) = k :: ks := by
        rw [hslice, hspl]
      have hstep := linkStep_found hfm hq hg hsc hsp
      have hc4 : content = (A ++ (pre ++ spanText keys attrs sf)) ++ Frag.flat rest := by
        rw [hc]
        simp [List.append_assoc]
      have hfuel4 : (Frag.flat rest).length < f := by
        simp only [List.length_append, hSlen] at hfuel
        omega
      have hrec := ih hrok content (A ++ (pre ++ spanText keys attrs sf))
        (some (A.length + pre.length + citeMarker.length + keys.length +
          (attrs.length + 1) + 1 + ((SF.flat sf).length + 7))) f hc4 hfuel4
      have hposS : A.length + pre.length + citeMarker.length + keys.length +
          (attrs.length + 1) + 1 + ((SF.flat sf).length + 7) =
          (A ++ (pre ++ spanText keys attrs sf)).length := by
        simp only [List.length_append, hSlen, hm35]
        omega
      rw [← hposS] at hrec
      rw [linkLoop_step hstep hrec]
      have hsl1 : (content.drop A.length).take (A.length + pre.length - A.length) = pre := by
        rw [hc, List.drop_left]
        rw [show A.length + pre.length - A.length = pre.length from by omega]
        rw [show pre ++ (spanText keys attrs sf ++ Frag.flat rest) =
            pre ++ (spanText keys attrs sf ++ Frag.flat rest) from rfl]
        exact List.take_left pre _
      have hsl2 : (content.drop (A.length + pre.length)).take
          (A.length + pre.length + citeMarker.length + keys.length +
            (attrs.length + 1) + 1 + ((SF.flat sf).length + 7) -
            (A.length + pre.length)) = spanText keys attrs sf := by
        rw [hc]
        rw [show A ++ (pre ++ (spanText keys attrs sf ++ Frag.flat rest)) =
            (A ++ pre) ++ (spanText keys attrs sf ++ Frag.flat rest) from by
          simp [List.append_assoc]]
        rw [show A.length + pre.length = (A ++ pre).length from by
          simp only [List.length_append]]
        rw [List.drop_left]
        rw [show (A ++ pre).length + citeMarker.length + keys.length +
            (attrs.length + 1) + 1 + ((SF.flat sf).length + 7) - (A ++ pre).length =
            (spanText keys attrs sf).length from by
          simp only [hSlen, hm35]; omega]
        exact List.take_left _ _
      rw [hsl1, hsl2]
      simp only [Frag.out, hspl]

/-- C1: citation linking.  For every content fragment (text free of partial
citation markers, interleaved with well-formed citation spans whose cite-key
attribute splits into at least one key and whose nested markup is a
well-nested span forest), `_link_citations`' per-file scan finds each span's
end by the nesting-depth counter and rewrites the file to `Frag.out`: a span
whose first cite-key `k` has `ref-k` in the bibliography identifier set is
wrapped, byte-for-byte unchanged, in `<a href="bc#ref-k">…</a>`; every other
span and all surrounding text are emitted unchanged. -/
theorem c1_link_citations (bc : List Char) (ids : List (List Char)) (fr : Frag)
    (hok : FragOk fr = true) :
    link_citations bc ids (Frag.flat fr) = Res.ok (Frag.out bc ids fr) := by
  cases fr with
  | done t =>
    simp only [link_citations]
    by_cases hg : hasOcc "data-cites=".data (Frag.flat (Frag.done t)) = true
    · rw [if_pos hg]
      exact linkLoop_frag bc ids (Frag.done t) hok _ [] none _ (by simp)
        (Nat.lt_succ_self _)
    · rw [if_neg hg]
      rfl
  | cite pre keys attrs sf rest =>
    have key : ∀ X : List Char, citeMarker ++ X =
        "<span class=\"citation\" ".data ++ ("data-cites=\"".data ++ X) := by
      intro X
      rw [← List.append_assoc]
      rfl
    have hg : hasOcc "data-cites=".data
        (Frag.flat (Frag.cite pre keys attrs sf rest)) = true := by
      apply hasOcc_of_startsWith_drop
        (show startsWith "data-cites=".data
          ((Frag.flat (Frag.cite pre keys attrs sf rest)).drop
            ((pre ++ "<span class=\"citation\" ".data).length)) = true from ?_)
      rw [show Frag.flat (Frag.cite pre keys attrs sf rest) =
          (pre ++ "<span class=\"citation\" ".data) ++ ("data-cites=\"".data ++
            (keys ++ ('"' :: (attrs ++ ('>' :: (SF.flat sf ++
              (closeTok ++ Frag.flat rest))))))) from by
        simp only [Frag.flat, spanText]
        rw [key]
        simp [List.append_assoc]]
      rw [List.drop_left]
      exact startsWith_extend (by decide) _
    simp only [link_citations]
    rw [if_pos hg]
    exact linkLoop_frag bc ids (Frag.cite pre keys attrs sf rest) hok _ [] none _
      (by simp) (Nat.lt_succ_self _)

set_option maxRecDepth 8000 in
theorem c1_witness :
    link_citations "bib.xhtml".data ["ref-a".data, "ref-b".data]
      "Intro <span class=\"citation\" data-cites=\"a b\">(<span class=\"q\">X</span>, Y)</span> tail".data =
    Res.ok "Intro <a href=\"bib.xhtml#ref-a\"><span class=\"citation\" data-cites=\"a b\">(<span class=\"q\">X</span>, Y)</span></a> tail".data := by
  have h := c1_link_citations "bib.xhtml".data ["ref-a".data, "ref-b".data]
    (Frag.cite "Intro ".data "a b".data []
      (SF.branch "(".data (SF.leaf " class=\"q\">X".data) (SF.leaf ", Y)".data))
      (Frag.done " tail".data)) (by decide)
  have e1 : Frag.flat (Frag.cite "Intro ".data "a b".data []
      (SF.branch "(".data (SF.leaf " class=\"q\">X".data) (SF.leaf ", Y)".data))
      (Frag.done " tail".data)) =
      "Intro <span class=\"citation\" data-cites=\"a b\">(<span class=\"q\">X</span>, Y)</span> tail".data := by
    decide
  have e2 : Frag.out "bib.xhtml".data ["ref-a".data, "ref-b".data]
      (Frag.cite "Intro ".data "a b".data []
      (SF.branch "(".data (SF.leaf " class=\"q\">X".data) (SF.leaf ", Y)".data))
      (Frag.done " tail".data)) =
      "Intro <a href=\"bib.xhtml#ref-a\"><span class=\"citation\" data-cites=\"a b\">(<span class=\"q\">X</span>, Y)</span></a> tail".data := by
    decide
  rw [e1, e2] at h
  exact h
